import Mathlib

/-! # graphite-ch-cleanup: a shallow embedding of `main.go`

The program retires entries of a ClickHouse graphite index table: it reads a
list of path patterns, validates an optional date filter, enumerates the dates
and paths that match, and issues one `ALTER TABLE ... DELETE` per date, gated
on the number of unfinished mutations.

Go strings are modelled by `String`; every separator, cutset and character
class the program uses is ASCII, so working on characters agrees with working
on bytes. Go `int` values that the program only formats or compares are `Int`.
The database, the pattern file and standard input are explicit inputs; what
the program does to the outside world is recorded as a list of `Effect`s.
-/

namespace GraphiteChCleanup

/-! ## Formatting helpers (`fmt.Sprintf` verbs used by the program) -/

/-- Zero padding of a digit string to a minimal width. -/
def padZero (w : Nat) (ds : List Char) : List Char :=
  List.replicate (w - ds.length) '0' ++ ds

/-- The verb `%0<w>d`: decimal, zero padded to width `w`, the sign counted in
the width. -/
def fmtZeroPad (w : Nat) (n : Int) : String :=
  if n < 0 then String.mk ('-' :: padZero (w - 1) (Nat.toDigits 10 n.natAbs))
  else String.mk (padZero w (Nat.toDigits 10 n.toNat))

/-- The verb `%d` on a non-negative count. -/
def fmtNat (n : Nat) : String := String.mk (Nat.toDigits 10 n)

/-! ## Data model -/

/-- The struct `Date`. -/
structure Date where
  Year : Int
  Month : Int
  Day : Int
  deriving DecidableEq, Repr

/-- The method `(*Date).String`: `fmt.Sprintf("%04d-%02d-%02d", ...)`. -/
def Date.String (d : Date) : String :=
  fmtZeroPad 4 d.Year ++ "-" ++ fmtZeroPad 2 d.Month ++ "-" ++ fmtZeroPad 2 d.Day

/-- The struct `ClickhouseMutation`, one row of `system.mutations`. -/
structure ClickhouseMutation where
  ID : String
  CreateTime : Int
  PartsToDo : Int
  Done : Nat
  Command : String
  deriving DecidableEq, Repr

/-! ## Query construction -/

/-- One rendered pattern: `fmt.Sprintf("Path like '%s'", glob)`. -/
def pathLike (glob : String) : String := "Path like '" ++ glob ++ "'"

/-- The loop `for i := range pathGlobs` of `graphiteIndexFilter`: the builder
content after the globs from index `i` on have been written. -/
def writeGlobs : Nat → List String → String → String
  | _, [], b => b
  | i, g :: gs, b =>
    writeGlobs (i + 1) gs ((if i > 0 then b ++ " OR " else b) ++ pathLike g)

/-- The function `graphiteIndexFilter`; a nil `*Date` is `none`. -/
def graphiteIndexFilter (pathGlobs : List String) (date : Option Date) : String :=
  if pathGlobs.length > 0 ∨ date.isSome = true then
    let b0 := "WHERE "
    let b1 := if pathGlobs.length > 0 then writeGlobs 0 pathGlobs (b0 ++ "(") ++ ")" else b0
    let appended : Bool := decide (pathGlobs.length > 0)
    match date with
    | some d => (if appended then b1 ++ " AND " else b1) ++ ("Date='" ++ d.String ++ "'")
    | none => b1
  else ""

/-- The local variable `dates` of the two enumeration query builders. -/
def dateClause (dateFilter : String) : String :=
  if dateFilter.length > 0 then " AND (" ++ dateFilter ++ ") " else ""

/-- The function `graphiteIndexDateQuery`. -/
def graphiteIndexDateQuery (graphiteIndex : String) (pathGlobs : List String)
    (dateFilter : String) : String :=
  "SELECT Date FROM " ++ graphiteIndex ++ " " ++ graphiteIndexFilter pathGlobs none ++
    dateClause dateFilter ++ " GROUP BY Date"

/-- The function `graphiteIndexPathQuery`. -/
def graphiteIndexPathQuery (graphiteIndex : String) (pathGlobs : List String)
    (dateFilter : String) : String :=
  "SELECT Path FROM " ++ graphiteIndex ++ " " ++ graphiteIndexFilter pathGlobs none ++
    dateClause dateFilter ++ " GROUP BY Path"

/-- The function `graphiteIndexDeleteQuery` (the format has two spaces before
`DELETE`). -/
def graphiteIndexDeleteQuery (graphiteIndex : String) (pathGlobs : List String)
    (date : Option Date) : String :=
  "ALTER TABLE " ++ graphiteIndex ++ "  DELETE " ++ graphiteIndexFilter pathGlobs date

/-- The query text built by `clickhouseMutations`; `isDone` is a `uint8`. -/
def mutationsQuery (database table : String) (isDone : Nat) : String :=
  "select mutation_id, create_time, parts_to_do, is_done, command from system.mutations where is_done="
    ++ fmtNat isDone ++ " and database='" ++ database ++ "' and table='" ++ table ++ "'"

/-! ## Pattern file -/

/-- The in-place loop of `reversePath`, `for i := 0; i < l/2; i++`, with the
number of remaining iterations as first argument: each round swaps `a[i]` and
`a[l-i-1]`. -/
def swapLoop {α : Type} (l : Nat) : Nat → Nat → List α → List α
  | 0, _, a => a
  | k + 1, i, a =>
    match a.get? i, a.get? (l - i - 1) with
    | some x, some y => swapLoop l k (i + 1) ((a.set i y).set (l - i - 1) x)
    | _, _ => a

/-- The function `reversePath`: split on `.`, reverse the segments in place,
join with `.`. -/
def reversePath (path : String) : String :=
  let a := path.data.splitOn '.'
  String.mk (".".data.intercalate (swapLoop a.length (a.length / 2) 0 a))

/-- The call `strings.Trim(s, " ")`: leading and trailing spaces removed. -/
def trimSpaces (s : String) : String :=
  String.mk (((s.data.dropWhile (· = ' ')).reverse.dropWhile (· = ' ')).reverse)

/-- The cutset of the `strings.IndexAny` call in `readGlobs`. -/
def forbiddenChars : List Char := "~!@#$^&*() '\"".data

/-- The test `strings.IndexAny(glob, "~!@#$^&*() '\"") != -1`. -/
def hasForbidden (glob : String) : Bool := glob.data.any (· ∈ forbiddenChars)

/-- The scanner loop of `readGlobs` over the remaining tokens, with the two
slices built so far; the final test on `len(globs)` comes when the lines are
exhausted. An error discards the slices, as the only caller does. -/
def scanGlobs : List String → List String → List String →
    Except String (List String × List String)
  | [], globs, globsWithReverse =>
    if globs.length = 0 then .error "empthy glob list" else .ok (globs, globsWithReverse)
  | line :: rest, globs, globsWithReverse =>
    let glob := trimSpaces line
    if glob.length = 0 then scanGlobs rest globs globsWithReverse
    else if glob = "%" ∨ glob = "?" then .error ("check glob in " ++ glob)
    else if hasForbidden glob then .error ("invalid symbol in glob " ++ glob)
    else scanGlobs rest (globs ++ [glob]) (globsWithReverse ++ [glob, reversePath glob])

/-- The constant `bufio.MaxScanTokenSize`: the largest buffer of a
`bufio.Scanner`, in bytes. A line and its newline must fit in it. -/
def maxScanTokenSize : Nat := 64 * 1024

/-- The helper `dropCR` of `bufio.ScanLines`: one trailing carriage return is
dropped. -/
def dropCR (line : String) : String :=
  if line.data.getLast? = some '\r' then String.mk line.data.dropLast else line

/-- The tokens that the calls of `scanner.Scan()` deliver for a file whose
bytes, split at the newline, are the given lines: each line without its
trailing carriage return, up to the first line that does not fit in the
buffer with its newline. There `Scan` returns false with the error
`bufio.ErrTooLong`, and `readGlobs` never reads `scanner.Err()`, so the lines
from that one on are not seen. -/
def scannerTokens : List String → List String
  | [] => []
  | line :: rest =>
    if line.utf8ByteSize < maxScanTokenSize then dropCR line :: scannerTokens rest else []

/-- The function `readGlobs`. The second argument is what opening and reading
the file at `path` gives: an error of `os.Open`, or the lines of the bytes
read (up to the end of the file or a read error), split at the newline. -/
def readGlobs (path : String) (file : Except String (List String)) :
    Except String (List String × List String) :=
  if path.length = 0 then .error "glob file path not set"
  else match file with
    | .error e => .error e
    | .ok lines => scanGlobs (scannerTokens lines) [] []

/-! ## Date filter validation (the first block of `main`) -/

/-- The match `^'[0-9]{4}-[0-9]{2}-[0-9]{2}'$`. -/
def isDateLiteral (v : String) : Bool :=
  match v.data with
  | [q1, y1, y2, y3, y4, h1, m1, m2, h2, d1, d2, q2] =>
    q1 = '\'' && y1.isDigit && y2.isDigit && y3.isDigit && y4.isDigit && h1 = '-' &&
      m1.isDigit && m2.isDigit && h2 = '-' && d1.isDigit && d2.isDigit && q2 = '\''
  | _ => false

/-- The condition of `case 1`: the token is none of the six comparators. -/
def notComparator (v : String) : Bool :=
  v != ">" && v != ">=" && v != "<" && v != "<=" && v != "=" && v != "!="

/-- The `for` loop over `values`: `len` is `len(values)`, the list holds
`values[i:]`, and `pos` is the state of the `switch`. -/
def dateFilterLoop (len : Nat) : List String → Nat → Nat → Except String Unit
  | [], _, _ => .ok ()
  | v :: rest, i, pos =>
    match pos with
    | 0 =>
      if v ≠ "Date" then .error ("Invalid date filter: use Date instead of " ++ v)
      else dateFilterLoop len rest (i + 1) (pos + 1)
    | 1 =>
      if notComparator v then
        .error ("Invalid date filter: use correct comparator instead of " ++ v)
      else dateFilterLoop len rest (i + 1) (pos + 1)
    | 2 =>
      if !isDateLiteral v then
        .error ("Invalid date filter: use correct date instead of " ++ v)
      else dateFilterLoop len rest (i + 1) (pos + 1)
    | 3 =>
      if v ≠ "AND" then .error ("Invalid date filter: use AND instead of " ++ v)
      else if i = len - 1 then
        .error ("Invalid date filter: can't use " ++ v ++ " at the and")
      else dateFilterLoop len rest (i + 1) 0
    | _ => dateFilterLoop len rest (i + 1) pos

/-- The call `strings.Split(s, " ")`. -/
def splitSpaces (s : String) : List String := (s.data.splitOn ' ').map String.mk

/-- The date filter block of `main`: `.error msg` is `log.Fatalf(msg)`. An
empty `-dates` value is no filter and is not examined. -/
def validateDateFilter (dateFilter : String) : Except String Unit :=
  if dateFilter.length > 0 then
    let values := splitSpaces dateFilter
    if values.length < 3 then .error "Invalid date filter"
    else dateFilterLoop values.length values 0 0
  else .ok ()

/-! ## The outside world and the effects of a run -/

/-- What `con.Query` followed by the `rows.Next`/`rows.Scan` loop meets: the
query fails, or it gives rows of which `none` marks a row whose `Scan` fails. -/
inductive Rows (α : Type) where
  | failed (err : String)
  | rows (rs : List (Option α))

/-- What one call of `clickhouseMutations` returns: a non-nil error (from the
query or from a scan), or the records. -/
inductive PollResult where
  | failed (err : String)
  | rows (merges : List ClickhouseMutation)
  deriving DecidableEq, Repr

/-- One observable action of the program, in the order it happens. `poll`
and `exec` record the answer of the engine together with the statement;
`reportMerge` stands for the line printed for one record while waiting. -/
inductive Effect where
  | print (s : String)
  | printErr (s : String)
  | query (q : String)
  | poll (q : String) (r : PollResult)
  | reportMerge (m : ClickhouseMutation)
  | sleep (seconds : Nat)
  | exec (q : String) (err : Option String)
  deriving DecidableEq, Repr

/-- How a run ends: normal return, `log.Fatal`, `os.Exit(1)` after `Canceled`,
a runtime panic (index out of range), or still waiting at the gate when the
recorded answers of the engine are used up. -/
inductive Outcome where
  | done
  | fatal (msg : String)
  | canceled
  | panic
  | starved
  deriving DecidableEq, Repr

/-- The engine as the program meets it: the error of `sql.Open` if any, the
answers to the two enumeration queries, the answers to the successive polls
of `system.mutations` in order, and the error (if any) of the `Exec` issued
for the date of index `i`. -/
structure Engine where
  openErr : Option String
  dateRows : String → Rows Date
  pathRows : String → Rows String
  polls : List PollResult
  execErr : Nat → String → Option String

/-- The command-line flags. -/
structure Flags where
  globsFile : String
  index : String
  query : Bool
  reverse : Bool
  delete : Bool
  showPath : Bool
  askDelete : Bool
  maxMerges : Int
  dateFilter : String

/-- Everything a run reads: the pattern file (the error of opening it, or its
lines), the first line of standard input (`none` when the scan fails), and the
engine. -/
structure World where
  globs : Except String (List String)
  stdin : Option String
  db : Engine

/-- Effects first, then the rest of the run. -/
def after (effs : List Effect) (r : Outcome × List Effect) : Outcome × List Effect :=
  (r.1, effs ++ r.2)

/-! ## Enumeration -/

/-- A `for rows.Next()` loop: the values appended so far, and whether the loop
left through a failing `Scan`. -/
def scanRows {α : Type} : List (Option α) → List α → List α × Bool
  | [], acc => (acc, false)
  | none :: _, acc => (acc, true)
  | some x :: rs, acc => scanRows rs (acc ++ [x])

/-- The function `graphiteIndexList`: the returned triple (the error is `none`
for nil) and the queries sent. -/
def graphiteIndexList (db : Engine) (graphiteIndex : String) (pathGlobs : List String)
    (dateFilter : String) : (List Date × List String × Option String) × List Effect :=
  if pathGlobs.length = 0 then (([], [], some "empthy path glob list"), [])
  else
    let query := graphiteIndexDateQuery graphiteIndex pathGlobs dateFilter
    match db.dateRows query with
    | .failed err => (([], [], some err), [.query query])
    | .rows rs =>
      match scanRows rs [] with
      | (dates, true) => ((dates, [], none), [.query query])
      | (dates, false) =>
        let query2 := graphiteIndexPathQuery graphiteIndex pathGlobs dateFilter
        match db.pathRows query2 with
        | .failed err => ((dates, [], some err), [.query query, .query query2])
        | .rows ps => ((dates, (scanRows ps []).1, none), [.query query, .query query2])

/-! ## The per-date loop -/

/-- The counting loop `for _, merge := range merges { if merge.Done == 0 { n++ } }`. -/
def countNotDone (merges : List ClickhouseMutation) : Nat :=
  merges.foldl (fun n merge => if merge.Done = 0 then n + 1 else n) 0

/-- The inner `for { ... }` of the per-date loop in delete mode, for the date
`d` of index `i` among `nDates`, reading the recorded polls. `wait := 10` is
declared inside the loop body, so every round starts from 10 and the
`wait += 10` after the sleep is lost with the round. The result is `none`
when the loop is left by `break`, with the effects and the unread polls. -/
def gateLoop (index : String) (maxMerges : Int) (execErr : Nat → String → Option String)
    (nDates : Nat) (d : Date) (i : Nat) (query : String) :
    List PollResult → Option Outcome × List Effect × List PollResult
  | [] => (some .starved, [], [])
  | r :: rest =>
    let wait := 10
    let asked := mutationsQuery "default" index 0
    match r with
    | .failed err => (some (.fatal err), [.poll asked r], rest)
    | .rows merges =>
      let n := countNotDone merges
      if (n : Int) ≥ maxMerges then
        let next := gateLoop index maxMerges execErr nDates d i query rest
        (next.1,
          [.poll asked r,
            .print ("\nWait for merges complete before delete " ++ d.String ++ " (" ++
              fmtNat i ++ " of " ++ fmtNat nDates ++ ")\n")] ++
          merges.map .reportMerge ++ [.sleep wait] ++ next.2.1,
          next.2.2)
      else
        match execErr i query with
        | some err => (some (.fatal err), [.poll asked r, .exec query (some err)], rest)
        | none =>
          (none,
            [.poll asked r, .exec query none] ++ (if i < nDates - 1 then [.sleep 1] else []),
            rest)

/-- The loop `for i := range dates`, from index `i` on (`ds` is `dates[i:]`):
the delete statement is built from `globsWithReverse` whatever the flags; in
delete mode it goes through the gate, otherwise it is printed. -/
def dateLoop (index : String) (globsWithReverse : List String) (delete : Bool)
    (maxMerges : Int) (execErr : Nat → String → Option String) (nDates : Nat) :
    List Date → Nat → List PollResult → Outcome × List Effect
  | [], _, _ => (.done, [])
  | d :: ds, i, polls =>
    let query := graphiteIndexDeleteQuery index globsWithReverse (some d)
    if delete then
      match gateLoop index maxMerges execErr nDates d i query polls with
      | (some out, effs, _) => (out, effs)
      | (none, effs, polls') =>
        after effs (dateLoop index globsWithReverse delete maxMerges execErr nDates ds (i + 1) polls')
    else
      after [.print (query ++ "\n\n")]
        (dateLoop index globsWithReverse delete maxMerges execErr nDates ds (i + 1) polls)

/-! ## The function `main` -/

/-- The summary line `Read N paths in M days: ...` of `main`; `none` when one
of the index expressions `dates[0]`, `dates[i]`, `dates[len(dates)-1]` is out
of range. -/
def summary (dates : List Date) (paths : List String) : Option (List Effect) :=
  let head := Effect.print
    ("Read " ++ fmtNat paths.length ++ " paths in " ++ fmtNat dates.length ++ " days:")
  match dates.get? 0 with
  | none => none
  | some d0 =>
    let sentinel : Bool := d0.Year = 1970 && d0.Month = 2 && d0.Day = 12
    let e1 := if sentinel then [Effect.print (" " ++ d0.String)] else []
    let i := if sentinel then 1 else 0
    let second : Option (List Effect) :=
      if i < dates.length then
        (dates.get? i).map fun di => [Effect.print (" " ++ di.String)]
      else some []
    let last : Option (List Effect) :=
      if i ≠ dates.length - 1 then
        (dates.get? (dates.length - 1)).map fun dl => [Effect.print (" - " ++ dl.String)]
      else some []
    match second, last with
    | some e2, some e3 => some ([head] ++ e1 ++ e2 ++ e3 ++ [Effect.print "\n"])
    | _, _ => none

/-- The part of `main` after a successful enumeration with at least one path:
summary, optional confirmation, per-date loop. -/
def planAndDelete (fl : Flags) (w : World) (globsWithReverse : List String)
    (dates : List Date) (paths : List String) : Outcome × List Effect :=
  match summary dates paths with
  | none =>
    (.panic, [.print ("Read " ++ fmtNat paths.length ++ " paths in " ++
      fmtNat dates.length ++ " days:")])
  | some effs =>
    let loop := fun (delete : Bool) =>
      dateLoop fl.index globsWithReverse delete fl.maxMerges w.db.execErr dates.length
        dates 0 w.db.polls
    after effs
      (if fl.askDelete then
        after [.print "Enter Y for start delete: "]
          (if w.stdin = some "Y" then loop true
           else (.canceled, [.printErr "Canceled\n"]))
      else loop fl.delete)

/-- The function `main`: how the run ends and what it did, for given flags and
a given world. -/
def mainRun (fl : Flags) (w : World) : Outcome × List Effect :=
  match validateDateFilter fl.dateFilter with
  | .error msg => (.fatal msg, [])
  | .ok _ =>
    if fl.index.length > 0 then
      match readGlobs fl.globsFile w.globs with
      | .error msg => (.fatal msg, [])
      | .ok (globs, globsWithReverse) =>
        if fl.query then
          (.done, [.print (graphiteIndexPathQuery fl.index
            (if fl.reverse then globsWithReverse else globs) fl.dateFilter ++ "\n")])
        else
          match w.db.openErr with
          | some err => (.fatal err, [])
          | none =>
            match graphiteIndexList w.db fl.index
                (if fl.reverse then globsWithReverse else globs) fl.dateFilter with
            | ((_, _, some err), qs) => (.fatal err, [.print "Check index\n"] ++ qs)
            | ((dates, paths, none), qs) =>
              after ([.print "Check index\n"] ++ qs ++
                  (if fl.showPath then paths.map fun path => Effect.print (path ++ "\n") else []))
                (if paths.length = 0 then (.fatal "No path found\n", [])
                 else planAndDelete fl w globsWithReverse dates paths)
    else (.done, [])

/-! ## Reference renderings, written from the specification -/

/-- Strings joined by a separator. -/
def joinWith (sep : String) : List String → String
  | [] => ""
  | [a] => a
  | a :: b :: rest => a ++ sep ++ joinWith sep (b :: rest)

/-- The pattern fragment: the patterns rendered as `Path like '<p>'`, joined by
` OR ` inside one pair of parentheses. -/
def patternFragment (ps : List String) : String :=
  "(" ++ joinWith " OR " (ps.map fun p => "Path like '" ++ p ++ "'") ++ ")"

/-- The predicate builder as the specification words it, by the four cases of
(patterns empty or not) and (date absent or present). -/
def filterSpec (ps : List String) (d : Option Date) : String :=
  match ps, d with
  | [], none => ""
  | _ :: _, none => "WHERE " ++ patternFragment ps
  | _ :: _, some d => "WHERE " ++ patternFragment ps ++ " AND Date='" ++ d.String ++ "'"
  | [], some d => "WHERE Date='" ++ d.String ++ "'"

/-- Every string of the list preceded by the separator, concatenated. -/
def sepBefore (sep : String) : List String → String
  | [] => ""
  | a :: rest => sep ++ a ++ sepBefore sep rest

/-- The characters the specification forbids in a pattern:
`~ ! @ # $ ^ & * ( )`, the space, `'` and `"`. -/
def forbiddenBySpec : List Char :=
  ['~', '!', '@', '#', '$', '^', '&', '*', '(', ')', ' ', '\'', '"']

/-- The rule of the specification for the token `v` at index `i` of `n`
tokens, by `i mod 4`; `true` when the token breaks it. -/
def breaksRule (n i : Nat) (v : String) : Bool :=
  match i % 4 with
  | 0 => decide (v ≠ "Date")
  | 1 => decide (v ∉ [">", ">=", "<", "<=", "=", "!="])
  | 2 => !isDateLiteral v
  | _ => decide (v ≠ "AND" ∨ i + 1 = n)

/-- The decimal digits. -/
def decimalDigits : List Char := ['0', '1', '2', '3', '4', '5', '6', '7', '8', '9']

/-- The six comparators of the filter grammar. -/
def comparators : List String := [">", ">=", "<", "<=", "=", "!="]

/-- One clause `Date <cmp> '<dddd-dd-dd>'` of a date filter: the comparator
and the eight characters of the date literal. -/
structure Clause where
  cmp : String
  y1 : Char
  y2 : Char
  y3 : Char
  y4 : Char
  m1 : Char
  m2 : Char
  d1 : Char
  d2 : Char

/-- The comparator is one of the six and the eight characters are digits. -/
def Clause.wellFormed (c : Clause) : Prop :=
  c.cmp ∈ comparators ∧
    ∀ ch ∈ [c.y1, c.y2, c.y3, c.y4, c.m1, c.m2, c.d1, c.d2], ch ∈ decimalDigits

/-- The three tokens of a clause. -/
def Clause.tokens (c : Clause) : List String :=
  ["Date", c.cmp,
    String.mk ['\'', c.y1, c.y2, c.y3, c.y4, '-', c.m1, c.m2, '-', c.d1, c.d2, '\'']]

/-- The tokens of a sequence of clauses joined by the token `AND`. -/
def clauseTokens : List Clause → List String
  | [] => []
  | [c] => c.tokens
  | c :: c' :: cs => c.tokens ++ "AND" :: clauseTokens (c' :: cs)

/-- The filter text: all tokens separated by exactly one space. -/
def renderFilter (cs : List Clause) : String := joinWith " " (clauseTokens cs)

/-! ## Traces, sample runs -/

/-- The effect is a statement executed on the engine. -/
def Effect.isExec : Effect → Bool
  | .exec _ _ => true
  | _ => false

/-- The effect is output on the terminal. -/
def Effect.isPrint : Effect → Bool
  | .print _ => true
  | .printErr _ => true
  | _ => false

/-- Every executed statement of the trace comes right after a poll of
`system.mutations` that returned records of which fewer than `C` are not
done. -/
def Gated (index : String) (C : Int) (l : List Effect) : Prop :=
  ∀ pre post q err, l = pre ++ Effect.exec q err :: post →
    ∃ pre' merges, pre = pre' ++ [Effect.poll (mutationsQuery "default" index 0) (.rows merges)] ∧
      (countNotDone merges : Int) < C

/-- The number of records with `is_done = 0`. -/
def incomplete (merges : List ClickhouseMutation) : Nat :=
  (merges.filter fun m => m.Done = 0).length

/-- The durations of the sleeps of a trace, in order. -/
def sleepsOf (l : List Effect) : List Nat :=
  l.filterMap fun e => match e with
    | .sleep s => some s
    | _ => none

/-- A dry run on the default index: no `-delete`, no `-ask`, no `-query`,
no `-reverse`, no date filter. -/
def flagsDry : Flags :=
  ⟨"globs.txt", "graphite_index", false, false, false, false, false, 1, ""⟩

/-- The same flags with `-delete`. -/
def flagsDelete : Flags :=
  ⟨"globs.txt", "graphite_index", false, false, true, false, false, 1, ""⟩

/-- An unfinished mutation. -/
def busyMutation : ClickhouseMutation :=
  ⟨"mutation_7.txt", 1580515200, 3, 0, "DELETE WHERE Date = '2020-01-31'"⟩

/-- A world with the single pattern `a.b`, one matching path and one date; the
engine reports one unfinished mutation on the first two polls and none on the
third. -/
def worldOne : World :=
  ⟨.ok ["a.b"], none,
    ⟨none, fun _ => .rows [some ⟨2020, 2, 1⟩], fun _ => .rows [some "a.b"],
      [.rows [busyMutation], .rows [busyMutation], .rows []], fun _ _ => none⟩⟩

/-- A world whose pattern file has the two lines `a.b.*` and `c.*`. -/
def worldStar : World :=
  ⟨.ok ["a.b.*", "c.*"], none,
    ⟨none, fun _ => .rows [some ⟨2020, 2, 1⟩, some ⟨2020, 2, 2⟩], fun _ => .rows [some "a.b.c"],
      [], fun _ _ => none⟩⟩

/-- A world whose pattern file has the two lines `a.b.%` and `c.%`, with two
dates and one path found. -/
def worldPercent : World :=
  ⟨.ok ["a.b.%", "c.%"], none,
    ⟨none, fun _ => .rows [some ⟨2020, 2, 1⟩, some ⟨2020, 2, 2⟩], fun _ => .rows [some "a.b.c"],
      [], fun _ _ => none⟩⟩

/-! ## Reference definitions for the pattern file, the dates and the loop -/

/-- The predicate of the two enumeration statements as the specification words
it: the pattern fragment, followed by ` AND (f)` exactly when the date filter
`f` is not empty. -/
def enumerationPredicate (ps : List String) (f : String) : String :=
  patternFragment ps ++ (if f = "" then "" else " AND (" ++ f ++ ")")

/-- The statement `SELECT <X> FROM <index> WHERE <predicate> GROUP BY <X>`;
`gap` is the white space between the predicate and `GROUP BY`. -/
def enumerationStatement (column index predicate gap : String) : String :=
  "SELECT " ++ column ++ " FROM " ++ index ++ " WHERE " ++ predicate ++ gap ++
    "GROUP BY " ++ column

/-- The lines with leading and trailing spaces trimmed and the empty ones
dropped, in file order. -/
def trimmedLines (lines : List String) : List String :=
  (lines.map trimSpaces).filter fun t => t ≠ ""

/-- The per-line checks on a trimmed, non-empty line: it is not the bare
wildcard `%` or `?` and contains no forbidden character. -/
def validGlob (t : String) : Prop :=
  t ≠ "%" ∧ t ≠ "?" ∧ ∀ c ∈ t.data, c ∉ forbiddenBySpec

/-- Each pattern followed by its segment-reversed variant. -/
def withReversed : List String → List String
  | [] => []
  | t :: ts => t :: reversePath t :: withReversed ts

/-- The character of the last decimal digit of a number. -/
def digitOf (k : Nat) : Char := Char.ofNat (48 + k % 10)

/-- The text `YYYY-MM-DD` of a year below 10000 and a month and a day below
100, zero padded. -/
def isoForm (y m d : Nat) : String :=
  String.mk [digitOf (y / 1000), digitOf (y / 100), digitOf (y / 10), digitOf y, '-',
    digitOf (m / 10), digitOf m, '-', digitOf (d / 10), digitOf d]

/-- The date is a calendar day in the range of the claim. -/
def Date.inRange (d : Date) : Prop :=
  0 ≤ d.Year ∧ d.Year ≤ 9999 ∧ 1 ≤ d.Month ∧ d.Month ≤ 12 ∧ 1 ≤ d.Day ∧ d.Day ≤ 31

/-- What the summary step writes before the loop starts or the run panics. -/
def summaryOutput (dates : List Date) (paths : List String) : List Effect :=
  match summary dates paths with
  | some s => s
  | none =>
    [.print ("Read " ++ fmtNat paths.length ++ " paths in " ++ fmtNat dates.length ++ " days:")]

/-- A world with the pattern `a.b` whose date query finds nothing while the
path query finds one path. -/
def worldNoDates : World :=
  ⟨.ok ["a.b"], none,
    ⟨none, fun _ => .rows [], fun _ => .rows [some "a.b"], [.rows []], fun _ _ => none⟩⟩

/-- A world with the pattern `a.b` where scanning the second row of the path
query fails; no mutation is pending. -/
def worldScanFails : World :=
  ⟨.ok ["a.b"], none,
    ⟨none, fun _ => .rows [some ⟨2020, 2, 1⟩], fun _ => .rows [some "a.b", none, some "a.c"],
      [.rows []], fun _ _ => none⟩⟩

/-- A world with the pattern `a.b` whose path query finds nothing, although
the date query finds a date. -/
def worldNoPath : World :=
  ⟨.ok ["a.b"], none,
    ⟨none, fun _ => .rows [some ⟨2020, 2, 1⟩], fun _ => .rows [], [.rows []], fun _ _ => none⟩⟩

/-- The statements executed in a trace, in order. -/
def execsOf (l : List Effect) : List String :=
  l.filterMap fun e => match e with
    | .exec q _ => some q
    | _ => none

/-- The answers of the engine to the polls of a run in which every gate
eventually passes: for each date, the records returned while the gate waits,
then the records returned when it passes. -/
def schedulePolls : List (List (List ClickhouseMutation) × List ClickhouseMutation) →
    List PollResult
  | [] => []
  | (waits, pass) :: rest => waits.map .rows ++ .rows pass :: schedulePolls rest

/-- A world with the pattern `a.b`, one path and two dates; no mutation is
pending at either poll. -/
def worldTwo : World :=
  ⟨.ok ["a.b"], none,
    ⟨none, fun _ => .rows [some ⟨2020, 2, 1⟩, some ⟨2020, 2, 2⟩], fun _ => .rows [some "a.b"],
      [.rows [], .rows []], fun _ _ => none⟩⟩

/-- A line of 70000 letters `x`, longer than the buffer of the scanner. -/
def longLine : String := String.mk (List.replicate 70000 'x')

/-- A world whose pattern file has the lines `a.b`, a line of 70000 letters
and `c d`; the enumeration finds one date and one path. -/
def worldLongLine : World :=
  ⟨.ok ["a.b", longLine, "c d"], none,
    ⟨none, fun _ => .rows [some ⟨2020, 2, 1⟩], fun _ => .rows [some "a.b"], [],
      fun _ _ => none⟩⟩

/-! # Theorems -/

/-! ## The predicate builder -/

theorem joinWith_cons (sep a : String) (rest : List String) :
    joinWith sep (a :: rest) = a ++ sepBefore sep rest := by
  induction rest generalizing a with
  | nil => simp [joinWith, sepBefore]
  | cons b rest ih => simp [joinWith, sepBefore, ih, String.append_assoc]

theorem writeGlobs_succ (i : Nat) (gs : List String) (b : String) :
    writeGlobs (i + 1) gs b = b ++ sepBefore " OR " (gs.map pathLike) := by
  induction gs generalizing i b with
  | nil => simp [writeGlobs, sepBefore]
  | cons g gs ih => simp [writeGlobs, sepBefore, ih, String.append_assoc]

theorem writeGlobs_zero (gs : List String) (b : String) :
    writeGlobs 0 gs b = b ++ joinWith " OR " (gs.map pathLike) := by
  cases gs with
  | nil => simp [writeGlobs, joinWith]
  | cons g gs => simp [writeGlobs, joinWith_cons, writeGlobs_succ, String.append_assoc]

theorem pathLike_eq : pathLike = fun p => "Path like '" ++ p ++ "'" := rfl

/-- The builder loop of `graphiteIndexFilter` agrees with the four-case
rendering (shared by the statements about the filter and the queries). -/
theorem filter_eq_cases (ps : List String) (d : Option Date) :
    graphiteIndexFilter ps d = filterSpec ps d := by
  cases ps with
  | nil =>
    cases d
    · simp [graphiteIndexFilter, filterSpec]
    · simp only [graphiteIndexFilter, filterSpec]
      simp
      rfl
  | cons p ps =>
    cases d <;>
      simp only [graphiteIndexFilter, filterSpec, patternFragment, writeGlobs_zero,
        ← pathLike_eq] <;>
      simp <;> apply String.ext <;> simp only [String.data_append, List.append_assoc] <;> rfl

/-- The delete statement for a non-empty pattern list, spelled out (shared by
the statements about the delete command and about the dry run). -/
theorem deleteQuery_spelled (index : String) (ps : List String) (d : Date) (hps : ps ≠ []) :
    graphiteIndexDeleteQuery index ps (some d) =
      "ALTER TABLE " ++ index ++ "  DELETE " ++
        ("WHERE " ++ patternFragment ps ++ " AND Date='" ++ d.String ++ "'") := by
  cases ps with
  | nil => exact absurd rfl hps
  | cons p ps => simp only [graphiteIndexDeleteQuery, filter_eq_cases, filterSpec]

/-- C1: for every index name, non-empty pattern list and date, the delete
statement is `ALTER TABLE <index>  DELETE WHERE ` followed by the pattern
fragment and by ` AND Date='<date>'`: one date condition, an equality on the
given date, and no input from the date filter. -/
theorem graphiteIndexDeleteQuery_single_date (index : String) (ps : List String) (d : Date)
    (hps : ps ≠ []) :
    graphiteIndexDeleteQuery index ps (some d) =
      "ALTER TABLE " ++ index ++ "  DELETE " ++
        ("WHERE " ++ patternFragment ps ++ " AND Date='" ++ d.String ++ "'") :=
  deleteQuery_spelled index ps d hps

/-- The delete statement for the patterns `a.%`, `b.c` and the date 2020-02-01. -/
theorem graphiteIndexDeleteQuery_single_date_witness :
    graphiteIndexDeleteQuery "graphite_index" ["a.%", "b.c"] (some ⟨2020, 2, 1⟩) =
      "ALTER TABLE graphite_index  DELETE WHERE (Path like 'a.%' OR Path like 'b.c') AND Date='2020-02-01'" :=
  (graphiteIndexDeleteQuery_single_date "graphite_index" ["a.%", "b.c"] ⟨2020, 2, 1⟩
    (by decide)).trans (by decide)

/-- C6: for every pattern list and optional date, `graphiteIndexFilter` gives
the empty string (no patterns, no date), `WHERE (p1 OR ...)` (patterns only),
the same followed by ` AND Date='Y-M-D'` (patterns and date), and
`WHERE Date='Y-M-D'` (date only). -/
theorem graphiteIndexFilter_eq_filterSpec (ps : List String) (d : Option Date) :
    graphiteIndexFilter ps d = filterSpec ps d :=
  filter_eq_cases ps d


/-! ## Segment reversal -/

/-- The swap loop started at index `i` with `i` elements already exchanged on
each side reverses the middle part. -/
theorem swapLoop_middle {α : Type} (k : Nat) :
    ∀ (pre mid suf : List α), pre.length = suf.length → mid.length / 2 = k →
      swapLoop (pre.length + mid.length + suf.length) k pre.length (pre ++ mid ++ suf) =
        pre ++ mid.reverse ++ suf := by
  induction k with
  | zero =>
    intro pre mid suf _ hk
    have hm : mid.length ≤ 1 := by omega
    have : mid.reverse = mid := by
      match mid, hm with
      | [], _ => rfl
      | [x], _ => rfl
    simp [swapLoop, this]
  | succ k ih =>
    intro pre mid suf hps hk
    have hm : 2 ≤ mid.length := by omega
    obtain ⟨x, mid1, rfl⟩ : ∃ x mid1, mid = x :: mid1 := by
      cases mid with
      | nil => simp at hm
      | cons x m => exact ⟨x, m, rfl⟩
    have hm1 : mid1 ≠ [] := by
      intro h; subst h; simp at hm
    obtain ⟨mid2, y, rfl⟩ : ∃ mid2 y, mid1 = mid2 ++ [y] :=
      ⟨mid1.dropLast, mid1.getLast hm1, (List.dropLast_append_getLast hm1).symm⟩
    have hk2 : mid2.length / 2 = k := by
      simp at hk; omega
    have hget1 : (pre ++ x :: (mid2 ++ [y]) ++ suf).get? pre.length = some x := by
      have e0 : pre ++ x :: (mid2 ++ [y]) ++ suf = pre ++ (x :: (mid2 ++ y :: suf)) := by simp
      rw [e0, List.get?_eq_getElem?, List.getElem?_append_right (le_refl _)]
      simp
    have hidx : pre.length + (x :: (mid2 ++ [y])).length + suf.length - pre.length - 1 =
        pre.length + (mid2.length + 1) := by
      simp; omega
    have hget2 : (pre ++ x :: (mid2 ++ [y]) ++ suf).get? (pre.length + (mid2.length + 1)) =
        some y := by
      have : pre ++ x :: (mid2 ++ [y]) ++ suf = (pre ++ x :: mid2) ++ y :: suf := by simp
      rw [this, List.get?_eq_getElem?, List.getElem?_append_right (by simp)]
      simp
    have hset : ((pre ++ x :: (mid2 ++ [y]) ++ suf).set pre.length y).set
        (pre.length + (mid2.length + 1)) x = (pre ++ [y]) ++ mid2 ++ (x :: suf) := by
      have e1 : pre ++ x :: (mid2 ++ [y]) ++ suf = pre ++ (x :: (mid2 ++ y :: suf)) := by simp
      rw [e1, List.set_append_right _ _ (le_refl _)]
      simp only [Nat.sub_self, List.set_cons_zero]
      have e2 : pre ++ y :: (mid2 ++ y :: suf) = (pre ++ y :: mid2) ++ (y :: suf) := by simp
      rw [e2, List.set_append_right _ _ (by simp)]
      have e3 : pre.length + (mid2.length + 1) - (pre ++ y :: mid2).length = 0 := by
        simp
      rw [e3]
      simp
    simp only [swapLoop]
    rw [hidx, hget1, hget2]
    simp only []
    rw [hset]
    have := ih (pre ++ [y]) mid2 (x :: suf) (by simp [hps]) hk2
    have hl : (pre ++ [y]).length + mid2.length + (x :: suf).length =
        pre.length + (x :: (mid2 ++ [y])).length + suf.length := by
      simp; omega
    have hi : (pre ++ [y]).length = pre.length + 1 := by simp
    rw [hl, hi] at this
    rw [this]
    simp

/-- The in-place loop of `reversePath` reverses the list of segments. -/
theorem swapLoop_eq_reverse {α : Type} (a : List α) :
    swapLoop a.length (a.length / 2) 0 a = a.reverse := by
  have := swapLoop_middle (a.length / 2) [] a [] rfl rfl
  simpa using this

/-! ## Pattern validation -/

theorem forbiddenBySpec_eq : forbiddenBySpec = forbiddenChars := by decide

/-- A line with a forbidden character stops the scanner loop with an error,
whatever was collected before. -/
theorem scanGlobs_forbidden (lines globs gwr : List String)
    (h : ∃ line ∈ lines, hasForbidden (trimSpaces line) = true) :
    ∃ msg, scanGlobs lines globs gwr = .error msg := by
  induction lines generalizing globs gwr with
  | nil => simp at h
  | cons line rest ih =>
    simp only [scanGlobs]
    split_ifs with h1 h2 h3
    · apply ih
      obtain ⟨l, hl, hf⟩ := h
      rcases List.mem_cons.mp hl with rfl | hl
      · have hd : (trimSpaces l).data = [] := List.length_eq_zero.mp h1
        simp [hasForbidden, hd] at hf
      · exact ⟨l, hl, hf⟩
    · exact ⟨_, rfl⟩
    · exact ⟨_, rfl⟩
    · apply ih
      obtain ⟨l, hl, hf⟩ := h
      rcases List.mem_cons.mp hl with rfl | hl
      · exact absurd hf h3
      · exact ⟨l, hl, hf⟩

/-! ## Date filter validation -/

theorem notComparator_iff (v : String) :
    notComparator v = true ↔ v ∉ [">", ">=", "<", "<=", "=", "!="] := by
  simp [notComparator, and_assoc]

/-- The loop stops with an error as soon as a token breaks the rule of its
position. -/
theorem dateFilterLoop_rejects (len : Nat) (rest : List String) (i pos : Nat)
    (hpos : pos = i % 4) (hlen : i + rest.length = len)
    (h : ∃ j v, rest.get? j = some v ∧ breaksRule len (i + j) v = true) :
    ∃ msg, dateFilterLoop len rest i pos = .error msg := by
  induction rest generalizing i pos with
  | nil => simp at h
  | cons v rest ih =>
    have hlen' : i + 1 + rest.length = len := by simp at hlen; omega
    have step : ∀ pos', pos' = (i + 1) % 4 → breaksRule len i v = false →
        ∃ msg, dateFilterLoop len rest (i + 1) pos' = .error msg := by
      intro pos' hpos' hv
      apply ih (i + 1) pos' hpos' hlen'
      obtain ⟨j, u, hj, hu⟩ := h
      cases j with
      | zero =>
        simp at hj
        subst hj
        simp [hv] at hu
      | succ j =>
        refine ⟨j, u, by simpa using hj, ?_⟩
        have : i + 1 + j = i + (j + 1) := by omega
        rw [this]; exact hu
    have hlt : i % 4 < 4 := Nat.mod_lt _ (by decide)
    have hcases : pos = 0 ∨ pos = 1 ∨ pos = 2 ∨ pos = 3 := by omega
    rcases hcases with rfl | rfl | rfl | rfl
    · simp only [dateFilterLoop]
      split_ifs with h1
      · exact ⟨_, rfl⟩
      · exact step _ (by omega) (by simp [breaksRule, ← hpos]; simpa using h1)
    · simp only [dateFilterLoop]
      split_ifs with h1
      · exact ⟨_, rfl⟩
      · refine step _ (by omega) ?_
        have := (notComparator_iff v).not.mp h1
        simp only [breaksRule, ← hpos]
        simpa using this
    · simp only [dateFilterLoop]
      split_ifs with h1
      · exact ⟨_, rfl⟩
      · exact step _ (by omega) (by simp [breaksRule, ← hpos]; simpa using h1)
    · simp only [dateFilterLoop]
      split_ifs with h1 h2
      · exact ⟨_, rfl⟩
      · exact ⟨_, rfl⟩
      · refine step _ (by omega) ?_
        simp only [breaksRule, ← hpos]
        simp at h1
        simp [h1]
        simp at hlen
        omega


theorem splitSpaces_ne_nil (f : String) : splitSpaces f ≠ [] := by
  unfold splitSpaces
  intro h
  have := List.map_eq_nil_iff.mp h
  exact List.splitOnP_ne_nil _ _ this

theorem validate_rejects_of_breaks (f : String) (hf : f ≠ "")
    (h : ∃ i v, (splitSpaces f).get? i = some v ∧
      breaksRule (splitSpaces f).length i v = true) :
    ∃ msg, validateDateFilter f = .error msg := by
  have hpos : f.length > 0 := by
    rcases Nat.eq_zero_or_pos f.length with h0 | h0
    · exact absurd (String.ext (List.length_eq_zero.mp h0)) hf
    · exact h0
  simp only [validateDateFilter, hpos, if_true]
  split_ifs with h2
  · exact ⟨_, rfl⟩
  · apply dateFilterLoop_rejects _ _ 0 0 rfl (by simp)
    simpa using h

theorem and_breaks_everywhere (n i : Nat) (hi : i + 1 = n) : breaksRule n i "AND" = true := by
  unfold breaksRule
  split
  · decide
  · decide
  · decide
  · simp [hi]

/-- C9: a supplied (non-empty) date filter is rejected whenever some token,
at index `i` of the tokens obtained by splitting on a single space, breaks the
rule of position `i mod 4` (0: equals `Date`; 1: one of the six comparators;
2: matches the quoted date pattern; 3: equals `AND` and is not the final
token); hence every filter whose final token is `AND` is rejected, and so is
the unquoted `Date > 2020-02-01`. -/
theorem validateDateFilter_rejects (f : String) (hf : f ≠ "") :
    ((∃ i v, (splitSpaces f).get? i = some v ∧
        breaksRule (splitSpaces f).length i v = true) →
      ∃ msg, validateDateFilter f = .error msg) ∧
    ((splitSpaces f).getLast? = some "AND" → ∃ msg, validateDateFilter f = .error msg) ∧
    ∃ msg, validateDateFilter "Date > 2020-02-01" = .error msg := by
  refine ⟨validate_rejects_of_breaks f hf, ?_, ⟨_, rfl⟩⟩
  intro hlast
  apply validate_rejects_of_breaks f hf
  have hne := splitSpaces_ne_nil f
  refine ⟨(splitSpaces f).length - 1, "AND", ?_, ?_⟩
  · rw [List.getLast?_eq_getElem?] at hlast
    simpa using hlast
  · apply and_breaks_everywhere
    have : 0 < (splitSpaces f).length := List.length_pos.mpr hne
    omega

/-- The filter `Date > '2020-02-01' AND` ends with `AND` and is rejected. -/
theorem validateDateFilter_rejects_witness :
    "Date > '2020-02-01' AND" ≠ "" ∧
      ∃ msg, validateDateFilter "Date > '2020-02-01' AND" = .error msg :=
  ⟨by decide, (validateDateFilter_rejects "Date > '2020-02-01' AND" (by decide)).2.1 rfl⟩

theorem joinWith_data (sep : String) (l : List String) :
    (joinWith sep l).data = sep.data.intercalate (l.map String.data) := by
  induction l with
  | nil => rfl
  | cons a rest ih =>
    cases rest with
    | nil => simp [joinWith, List.intercalate]
    | cons b rest =>
      simp only [joinWith, String.data_append, ih]
      simp [List.intercalate, List.intersperse]

theorem splitSpaces_joinWith (toks : List String) (hne : toks ≠ [])
    (h : ∀ t ∈ toks, ' ' ∉ t.data) : splitSpaces (joinWith " " toks) = toks := by
  unfold splitSpaces
  rw [joinWith_data]
  have hsp : " ".data = [' '] := rfl
  rw [hsp, List.splitOn_intercalate _ ' ' (by simpa using h) (by simpa using hne)]
  simp [List.map_map, Function.comp_def]

theorem digit_facts : ∀ ch ∈ decimalDigits, ch ≠ ' ' ∧ ch.isDigit = true := by decide

theorem comparator_facts : ∀ v ∈ comparators, ' ' ∉ v.data ∧ notComparator v = false := by
  decide

theorem Clause.tokens_no_space (c : Clause) (hc : c.wellFormed) :
    ∀ t ∈ c.tokens, ' ' ∉ t.data := by
  obtain ⟨hcmp, hd⟩ := hc
  have hd' : ∀ ch ∈ [c.y1, c.y2, c.y3, c.y4, c.m1, c.m2, c.d1, c.d2], ' ' ≠ ch :=
    fun ch hch => ((digit_facts ch (hd ch hch)).1).symm
  simp only [List.mem_cons, List.mem_singleton, List.not_mem_nil, or_false, forall_eq_or_imp,
    forall_eq] at hd'
  intro t ht
  simp only [Clause.tokens, List.mem_cons, List.mem_singleton, List.not_mem_nil, or_false] at ht
  rcases ht with rfl | rfl | rfl
  · decide
  · exact (comparator_facts _ hcmp).1
  · simp only [List.mem_cons, List.not_mem_nil, or_false, not_or]
    obtain ⟨h1, h2, h3, h4, h5, h6, h7, h8⟩ := hd'
    exact ⟨by decide, h1, h2, h3, h4, by decide, h5, h6, by decide, h7, h8, by decide⟩

theorem clauseTokens_no_space (cs : List Clause) (hcs : ∀ c ∈ cs, c.wellFormed) :
    ∀ t ∈ clauseTokens cs, ' ' ∉ t.data := by
  induction cs with
  | nil => simp [clauseTokens]
  | cons c rest ih =>
    cases rest with
    | nil =>
      simpa [clauseTokens] using Clause.tokens_no_space c (hcs c (by simp))
    | cons c' rest =>
      intro t ht
      simp only [clauseTokens, List.mem_append, List.mem_cons] at ht
      rcases ht with ht | rfl | ht
      · exact Clause.tokens_no_space c (hcs c (by simp)) t ht
      · decide
      · exact ih (fun x hx => hcs x (List.mem_cons_of_mem _ hx)) t ht

theorem clauseTokens_length (c : Clause) (cs : List Clause) :
    3 ≤ (clauseTokens (c :: cs)).length := by
  cases cs with
  | nil => simp [clauseTokens, Clause.tokens]
  | cons c' rest => simp [clauseTokens, Clause.tokens]

theorem isDateLiteral_of_digits (c : Clause) (hc : c.wellFormed) :
    isDateLiteral
      (String.mk ['\'', c.y1, c.y2, c.y3, c.y4, '-', c.m1, c.m2, '-', c.d1, c.d2, '\'']) = true := by
  have hd : ∀ ch ∈ [c.y1, c.y2, c.y3, c.y4, c.m1, c.m2, c.d1, c.d2], ch.isDigit = true :=
    fun ch hch => (digit_facts ch (hc.2 ch hch)).2
  simp only [List.mem_cons, List.mem_singleton, List.not_mem_nil, or_false, forall_eq_or_imp,
    forall_eq] at hd
  obtain ⟨h1, h2, h3, h4, h5, h6, h7, h8⟩ := hd
  simp [isDateLiteral, h1, h2, h3, h4, h5, h6, h7, h8]

/-- The loop accepts the tokens of well-formed clauses, started at a clause
boundary. -/
theorem dateFilterLoop_accepts (len : Nat) (cs : List Clause)
    (hcs : ∀ c ∈ cs, c.wellFormed) (i : Nat) (hlen : i + (clauseTokens cs).length = len) :
    dateFilterLoop len (clauseTokens cs) i 0 = .ok () := by
  induction cs generalizing i with
  | nil => simp [clauseTokens, dateFilterLoop]
  | cons c rest ih =>
    have hc := hcs c (by simp)
    have hcmp := (comparator_facts _ hc.1).2
    have hlit := isDateLiteral_of_digits c hc
    cases rest with
    | nil =>
      simp [clauseTokens, Clause.tokens, dateFilterLoop, hcmp, hlit]
    | cons c' rest =>
      have h3 := clauseTokens_length c' rest
      have hrest := ih (fun x hx => hcs x (List.mem_cons_of_mem _ hx)) (i + 1 + 1 + 1 + 1)
        (by simp [clauseTokens, Clause.tokens] at hlen ⊢; omega)
      have hnl : ¬ (i + 1 + 1 + 1 = len - 1) := by
        simp [clauseTokens, Clause.tokens] at hlen; omega
      simp [clauseTokens, Clause.tokens, dateFilterLoop, hcmp, hlit, hnl, hrest]

/-- C10: for every non-empty sequence of clauses `Date <cmp> '<dddd-dd-dd>'`
(comparator one of the six, every `d` a decimal digit), joined by `AND` with
all tokens separated by exactly one space, validation succeeds. -/
theorem validateDateFilter_accepts (cs : List Clause) (hne : cs ≠ [])
    (hcs : ∀ c ∈ cs, c.wellFormed) : validateDateFilter (renderFilter cs) = .ok () := by
  obtain ⟨c, rest, rfl⟩ := List.exists_cons_of_ne_nil hne
  have h3 := clauseTokens_length c rest
  have hne' : clauseTokens (c :: rest) ≠ [] := by
    intro h; rw [h] at h3; simp at h3
  have hsplit : splitSpaces (renderFilter (c :: rest)) = clauseTokens (c :: rest) :=
    splitSpaces_joinWith _ hne' (clauseTokens_no_space _ hcs)
  unfold validateDateFilter
  simp only [hsplit]
  split_ifs with h1 h2
  · omega
  · exact dateFilterLoop_accepts _ _ hcs 0 (by simp)
  · rfl

/-- The filter of the flag's help text is accepted. -/
theorem validateDateFilter_accepts_witness :
    validateDateFilter "Date > '2020-02-01' AND Date < '2020-03-01'" = .ok () :=
  validateDateFilter_accepts
    [⟨">", '2', '0', '2', '0', '0', '2', '0', '1'⟩, ⟨"<", '2', '0', '2', '0', '0', '3', '0', '1'⟩]
    (List.cons_ne_nil _ _)
    (by
      intro c hc
      simp only [List.mem_cons, List.mem_singleton, List.not_mem_nil, or_false] at hc
      rcases hc with rfl | rfl <;> exact ⟨by decide, by decide⟩)

/-- C8: the filter `Date > '2020-02-01' AND Date` is accepted although it has
five tokens and ends with the token `Date`, which is no date literal. -/
theorem validateDateFilter_accepts_incomplete_clause :
    validateDateFilter "Date > '2020-02-01' AND Date" = .ok () ∧
    splitSpaces "Date > '2020-02-01' AND Date" = ["Date", ">", "'2020-02-01'", "AND", "Date"] ∧
    (∀ k, (splitSpaces "Date > '2020-02-01' AND Date").length ≠ 4 * k + 3) ∧
    isDateLiteral "Date" = false := by
  refine ⟨rfl, rfl, ?_, rfl⟩
  intro k
  have h : (splitSpaces "Date > '2020-02-01' AND Date").length = 5 := rfl
  rw [h]; omega

/-! ## Shape of a run -/

theorem gated_of_noExec (index : String) (C : Int) (l : List Effect)
    (h : ∀ e ∈ l, e.isExec = false) : Gated index C l := by
  intro pre post q err heq
  have := h (Effect.exec q err) (by rw [heq]; simp)
  simp [Effect.isExec] at this

theorem gated_append (index : String) (C : Int) (l1 l2 : List Effect)
    (h1 : Gated index C l1) (h2 : Gated index C l2) : Gated index C (l1 ++ l2) := by
  intro pre post q err heq
  rcases List.append_eq_append_iff.mp heq with ⟨a, ha, hb⟩ | ⟨c, hc, hd⟩
  · obtain ⟨pre', ms, hp, hlt⟩ := h2 a post q err hb
    exact ⟨l1 ++ pre', ms, by rw [ha, hp, List.append_assoc], hlt⟩
  · cases c with
    | nil =>
      obtain ⟨pre', ms, hp, _⟩ := h2 [] post q err (by simpa using hd.symm)
      simp at hp
    | cons x c =>
      simp only [List.cons_append, List.cons.injEq] at hd
      obtain ⟨hx, _⟩ := hd
      subst hx
      exact h1 pre c q err hc

theorem gated_pass (index : String) (C : Int) (merges : List ClickhouseMutation)
    (q : String) (err : Option String) (hlt : (countNotDone merges : Int) < C) :
    Gated index C
      [Effect.poll (mutationsQuery "default" index 0) (.rows merges), Effect.exec q err] := by
  intro pre post q' err' heq
  cases pre with
  | nil => simp at heq
  | cons x pre =>
    cases pre with
    | nil =>
      simp only [List.cons_append, List.nil_append, List.cons.injEq] at heq
      exact ⟨[], merges, by simp [heq.1], hlt⟩
    | cons y pre =>
      simp only [List.cons_append, List.cons.injEq] at heq
      have := heq.2.2
      simp at this

theorem gateLoop_gated (index : String) (C : Int) (execErr : Nat → String → Option String)
    (n : Nat) (d : Date) (i : Nat) (query : String) (polls : List PollResult) :
    Gated index C (gateLoop index C execErr n d i query polls).2.1 := by
  induction polls with
  | nil => exact gated_of_noExec _ _ _ (by simp [gateLoop])
  | cons r rest ih =>
    cases r with
    | failed err => exact gated_of_noExec _ _ _ (by simp [gateLoop, Effect.isExec])
    | rows merges =>
      simp only [gateLoop]
      by_cases hge : (countNotDone merges : Int) ≥ C
      · rw [if_pos hge]
        apply gated_append _ _ _ _ _ ih
        exact gated_of_noExec _ _ _ (by
          intro e he
          simp only [List.cons_append, List.nil_append, List.mem_cons, List.mem_append,
            List.mem_map, List.mem_singleton, List.not_mem_nil, or_false] at he
          rcases he with rfl | rfl | ⟨m, _, rfl⟩ | rfl <;> rfl)
      · rw [if_neg hge]
        have hlt : (countNotDone merges : Int) < C := by omega
        cases hx : execErr i query with
        | some err => exact gated_pass _ _ _ _ _ hlt
        | none =>
          apply gated_append _ _ _ _ (gated_pass _ _ _ _ _ hlt)
          apply gated_of_noExec
          intro e he
          split_ifs at he
          · simp only [List.mem_singleton] at he
            subst he; rfl
          · simp at he

theorem dateLoop_gated (index : String) (gwr : List String) (delete : Bool) (C : Int)
    (execErr : Nat → String → Option String) (n : Nat) (ds : List Date) (i : Nat)
    (polls : List PollResult) :
    Gated index C (dateLoop index gwr delete C execErr n ds i polls).2 := by
  induction ds generalizing i polls with
  | nil => exact gated_of_noExec _ _ _ (by simp [dateLoop])
  | cons d ds ih =>
    simp only [dateLoop]
    split_ifs with hdel
    · have hg := gateLoop_gated index C execErr n d i
        (graphiteIndexDeleteQuery index gwr (some d)) polls
      split
      · next out effs rest heq => rw [heq] at hg; exact hg
      · next effs polls' heq =>
        rw [heq] at hg
        exact gated_append _ _ _ _ hg (ih _ _)
    · exact gated_append _ _ _ _ (gated_of_noExec _ _ _ (by simp [Effect.isExec])) (ih _ _)

theorem optional_print (c : Prop) [Decidable c] (o : Option Date) (g : Date → String)
    (es : List Effect)
    (h : (if c then o.map (fun d => [Effect.print (g d)]) else some []) = some es) :
    ∀ e ∈ es, e.isPrint = true := by
  split_ifs at h
  · cases o with
    | none => simp at h
    | some d =>
      simp only [Option.map_some', Option.some.injEq] at h
      subst h
      intro e he
      simp only [List.mem_singleton] at he
      subst he; rfl
  · simp only [Option.some.injEq] at h
    subst h
    intro e he
    simp at he

theorem summary_prints (dates : List Date) (paths : List String) (s : List Effect)
    (h : summary dates paths = some s) : ∀ e ∈ s, e.isPrint = true := by
  unfold summary at h
  cases h0 : dates.get? 0 with
  | none => rw [h0] at h; contradiction
  | some d0 =>
    rw [h0] at h
    simp only [] at h
    split at h
    · next e2 e3 h2 h3 =>
      injection h with h
      subst h
      have p2 := optional_print _ _ _ _ h2
      have p3 := optional_print _ _ _ _ h3
      intro e he
      simp only [List.mem_append, List.mem_singleton, List.mem_cons, List.not_mem_nil,
        or_false] at he
      rcases he with ((((rfl | he) | he) | he) | rfl)
      · rfl
      · split_ifs at he
        · simp only [List.mem_singleton] at he; subst he; rfl
        · simp at he
      · exact p2 e he
      · exact p3 e he
      · rfl
    · contradiction

theorem graphiteIndexList_queries (db : Engine) (index : String) (ps : List String)
    (f : String) :
    ∀ e ∈ (graphiteIndexList db index ps f).2,
      e = .query (graphiteIndexDateQuery index ps f) ∨
        e = .query (graphiteIndexPathQuery index ps f) := by
  unfold graphiteIndexList
  split_ifs
  · simp
  · simp only []
    split
    · simp
    · split
      · simp
      · split <;> simp

theorem planAndDelete_shape (fl : Flags) (w : World) (gwr : List String) (dates : List Date)
    (paths : List String) :
    ∃ pre loopPart, (planAndDelete fl w gwr dates paths).2 = pre ++ loopPart ∧
      (∀ e ∈ pre, e.isPrint = true) ∧
      (loopPart = [] ∨ ∃ del, loopPart =
        (dateLoop fl.index gwr del fl.maxMerges w.db.execErr dates.length dates 0 w.db.polls).2) := by
  unfold planAndDelete
  cases hs : summary dates paths with
  | none => exact ⟨[_], [], rfl, by simp [Effect.isPrint], Or.inl rfl⟩
  | some s =>
    have hp := summary_prints dates paths s hs
    simp only [after]
    by_cases hask : fl.askDelete = true
    · rw [if_pos hask]
      by_cases hy : w.stdin = some "Y"
      · rw [if_pos hy]
        refine ⟨s ++ [.print "Enter Y for start delete: "], _, ?_, ?_, Or.inr ⟨true, rfl⟩⟩
        · simp
        · intro e he
          rcases List.mem_append.mp he with he | he
          · exact hp e he
          · simp at he; subst he; rfl
      · rw [if_neg hy]
        refine ⟨s ++ [.print "Enter Y for start delete: ", .printErr "Canceled\n"], [], ?_, ?_,
          Or.inl rfl⟩
        · simp
        · intro e he
          rcases List.mem_append.mp he with he | he
          · exact hp e he
          · simp at he; rcases he with rfl | rfl <;> rfl
    · rw [if_neg hask]
      exact ⟨s, _, rfl, hp, Or.inr ⟨fl.delete, rfl⟩⟩

/-- A run does nothing, or it reads the patterns and its trace is a prefix of
terminal output and of the two enumeration queries, followed by nothing or by
the effects of the per-date loop over the reverse-augmented list. -/
theorem mainRun_shape (fl : Flags) (w : World) :
    (mainRun fl w).2 = [] ∨
    ∃ globs gwr, readGlobs fl.globsFile w.globs = .ok (globs, gwr) ∧
      ∃ pre loopPart, (mainRun fl w).2 = pre ++ loopPart ∧
        (∀ e ∈ pre, e.isPrint = true ∨
          e = .query (graphiteIndexDateQuery fl.index (if fl.reverse then gwr else globs)
            fl.dateFilter) ∨
          e = .query (graphiteIndexPathQuery fl.index (if fl.reverse then gwr else globs)
            fl.dateFilter)) ∧
        (loopPart = [] ∨ ∃ del dates, loopPart =
          (dateLoop fl.index gwr del fl.maxMerges w.db.execErr dates.length dates 0
            w.db.polls).2) := by
  unfold mainRun
  cases hv : validateDateFilter fl.dateFilter with
  | error msg => left; rfl
  | ok u =>
    simp only []
    by_cases hidx : fl.index.length > 0
    · rw [if_pos hidx]
      cases hr : readGlobs fl.globsFile w.globs with
      | error msg => left; rfl
      | ok p =>
        obtain ⟨globs, gwr⟩ := p
        right
        refine ⟨globs, gwr, rfl, ?_⟩
        simp only []
        by_cases hq : fl.query = true
        · rw [if_pos hq]
          exact ⟨[_], [], rfl, by simp [Effect.isPrint], Or.inl rfl⟩
        · rw [if_neg hq]
          cases ho : w.db.openErr with
          | some err => exact ⟨[], [], rfl, by simp, Or.inl rfl⟩
          | none =>
            simp only []
            have hqs := graphiteIndexList_queries w.db fl.index
              (if fl.reverse then gwr else globs) fl.dateFilter
            rcases hl : graphiteIndexList w.db fl.index
              (if fl.reverse then gwr else globs) fl.dateFilter with ⟨⟨dates, paths, err⟩, qs⟩
            rw [hl] at hqs
            simp only at hqs
            cases err with
            | some err =>
              refine ⟨[.print "Check index\n"] ++ qs, [], by simp, ?_, Or.inl rfl⟩
              intro e he
              rcases List.mem_append.mp he with he | he
              · simp at he; subst he; left; rfl
              · right; exact hqs e he
            | none =>
              simp only [after]
              have hpre : ∀ e ∈ [Effect.print "Check index\n"] ++ qs ++
                  (if fl.showPath then paths.map fun path => Effect.print (path ++ "\n")
                    else []),
                  e.isPrint = true ∨
                  e = .query (graphiteIndexDateQuery fl.index (if fl.reverse then gwr else globs)
                    fl.dateFilter) ∨
                  e = .query (graphiteIndexPathQuery fl.index (if fl.reverse then gwr else globs)
                    fl.dateFilter) := by
                intro e he
                rcases List.mem_append.mp he with he | he
                · rcases List.mem_append.mp he with he | he
                  · simp at he; subst he; left; rfl
                  · right; exact hqs e he
                · left
                  split_ifs at he
                  · simp at he
                    obtain ⟨a, _, rfl⟩ := he
                    rfl
                  · simp at he
              by_cases hp : paths.length = 0
              · rw [if_pos hp]
                exact ⟨_, [], by simp, hpre, Or.inl rfl⟩
              · rw [if_neg hp]
                obtain ⟨pre, lp, heq, hpr, hlp⟩ := planAndDelete_shape fl w gwr dates paths
                refine ⟨([Effect.print "Check index\n"] ++ qs ++
                  (if fl.showPath then paths.map fun path => Effect.print (path ++ "\n")
                    else [])) ++ pre, lp, ?_, ?_, ?_⟩
                · rw [heq]; simp only [List.append_assoc]
                · intro e he
                  rcases List.mem_append.mp he with he | he
                  · exact hpre e he
                  · left; exact hpr e he
                · rcases hlp with h | ⟨del, h⟩
                  · left; exact h
                  · right; exact ⟨del, dates, h⟩
    · rw [if_neg hidx]
      left; rfl

theorem countNotDone_foldl (merges : List ClickhouseMutation) (k : Nat) :
    merges.foldl (fun n merge => if merge.Done = 0 then n + 1 else n) k =
      k + incomplete merges := by
  induction merges generalizing k with
  | nil => simp [incomplete]
  | cons m ms ih =>
    simp only [List.foldl_cons, ih, incomplete, List.filter_cons]
    by_cases h : m.Done = 0
    · simp [h]
      omega
    · simp [h]

theorem countNotDone_eq (merges : List ClickhouseMutation) :
    countNotDone merges = incomplete merges := by
  simp [countNotDone, countNotDone_foldl]

/-- The first effect of a round of the gate is the poll. -/
theorem gateLoop_head (index : String) (C : Int) (execErr : Nat → String → Option String)
    (n : Nat) (d : Date) (i : Nat) (query : String) (r : PollResult) (rest : List PollResult) :
    ∃ tail, (gateLoop index C execErr n d i query (r :: rest)).2.1 =
      .poll (mutationsQuery "default" index 0) r :: tail := by
  cases r with
  | failed err => exact ⟨[], rfl⟩
  | rows merges =>
    simp only [gateLoop]
    by_cases hge : (countNotDone merges : Int) ≥ C
    · rw [if_pos hge]
      exact ⟨_, rfl⟩
    · rw [if_neg hge]
      cases hx : execErr i query <;> exact ⟨_, rfl⟩

/-- C3: in delete mode, for every date, every list of records returned by a
poll and every ceiling `C`, the delete statement of the date is executed right
after that poll if and only if the number of records with `is_done = 0` is
below `C`; otherwise the round executes nothing, sleeps, and the loop goes on
with the next poll. Hence in every run each executed statement comes right
after a poll whose number of unfinished records is below the ceiling. -/
theorem gate_proceeds_iff_below_ceiling (fl : Flags) (w : World) (index : String) (C : Int)
    (execErr : Nat → String → Option String) (n : Nat) (d : Date) (i : Nat) (query : String)
    (merges : List ClickhouseMutation) (rest : List PollResult) :
    ((∃ tail, (gateLoop index C execErr n d i query (.rows merges :: rest)).2.1 =
        .poll (mutationsQuery "default" index 0) (.rows merges) ::
          .exec query (execErr i query) :: tail) ↔ (incomplete merges : Int) < C) ∧
    (C ≤ (incomplete merges : Int) →
      (∀ q err, Effect.exec q err ∉
        [Effect.poll (mutationsQuery "default" index 0) (.rows merges),
          .print ("\nWait for merges complete before delete " ++ d.String ++ " (" ++
            fmtNat i ++ " of " ++ fmtNat n ++ ")\n")] ++
          merges.map .reportMerge ++ [.sleep 10]) ∧
      gateLoop index C execErr n d i query (.rows merges :: rest) =
        ((gateLoop index C execErr n d i query rest).1,
          [Effect.poll (mutationsQuery "default" index 0) (.rows merges),
            .print ("\nWait for merges complete before delete " ++ d.String ++ " (" ++
              fmtNat i ++ " of " ++ fmtNat n ++ ")\n")] ++
            merges.map .reportMerge ++ [.sleep 10] ++
            (gateLoop index C execErr n d i query rest).2.1,
          (gateLoop index C execErr n d i query rest).2.2) ∧
      ∀ r rest', rest = r :: rest' →
        ∃ tail, (gateLoop index C execErr n d i query rest).2.1 =
          .poll (mutationsQuery "default" index 0) r :: tail) ∧
    (∀ pre post q err, (mainRun fl w).2 = pre ++ Effect.exec q err :: post →
      ∃ pre' merges', pre = pre' ++
          [Effect.poll (mutationsQuery "default" fl.index 0) (.rows merges')] ∧
        (incomplete merges' : Int) < fl.maxMerges) := by
  refine ⟨?_, ?_, ?_⟩
  · simp only [gateLoop, countNotDone_eq]
    by_cases hge : (incomplete merges : Int) ≥ C
    · rw [if_pos hge]
      constructor
      · rintro ⟨tail, h⟩
        simp at h
      · intro h; omega
    · rw [if_neg hge]
      constructor
      · intro _; omega
      · intro _
        cases hx : execErr i query <;> exact ⟨_, rfl⟩
  · intro hge
    refine ⟨?_, ?_, ?_⟩
    · intro q err hmem
      simp at hmem
    · simp only [gateLoop, countNotDone_eq]
      rw [if_pos hge]
    · intro r rest' hr
      subst hr
      exact gateLoop_head _ _ _ _ _ _ _ _ _
  · have hg : Gated fl.index fl.maxMerges (mainRun fl w).2 := by
      rcases mainRun_shape fl w with h | ⟨globs, gwr, _, pre, lp, heq, hpre, hlp⟩
      · rw [h]; exact gated_of_noExec _ _ _ (by simp)
      · rw [heq]
        apply gated_append
        · apply gated_of_noExec
          intro e he
          rcases hpre e he with h | h | h
          · cases e <;> simp [Effect.isPrint] at h <;> rfl
          · subst h; rfl
          · subst h; rfl
        · rcases hlp with h | ⟨del, dates, h⟩
          · rw [h]; exact gated_of_noExec _ _ _ (by simp)
          · rw [h]; exact dateLoop_gated _ _ _ _ _ _ _ _ _
    intro pre post q err heq
    obtain ⟨pre', ms, hp, hlt⟩ := hg pre post q err heq
    exact ⟨pre', ms, hp, by rw [← countNotDone_eq]; exact hlt⟩

/-! ## Dry run -/

theorem dateLoop_dry (index : String) (gwr : List String) (C : Int)
    (execErr : Nat → String → Option String) (n : Nat) (ds : List Date) (i : Nat)
    (polls : List PollResult) :
    dateLoop index gwr false C execErr n ds i polls =
      (.done, ds.map fun d => .print (graphiteIndexDeleteQuery index gwr (some d) ++ "\n\n")) := by
  induction ds generalizing i with
  | nil => rfl
  | cons d ds ih => simp [dateLoop, ih, after]

/-- A dry run that finds at least one path prints the check line, sends the
two enumeration queries, prints the summary and then one delete statement per
date, built from the reverse-augmented list. -/
theorem mainRun_dry (fl : Flags) (w : World) (globs gwr : List String) (dates : List Date)
    (paths : List String) (qs s : List Effect)
    (hv : validateDateFilter fl.dateFilter = .ok ()) (hidx : fl.index.length > 0)
    (hread : readGlobs fl.globsFile w.globs = .ok (globs, gwr)) (hq : fl.query = false)
    (ho : w.db.openErr = none)
    (hl : graphiteIndexList w.db fl.index (if fl.reverse then gwr else globs) fl.dateFilter =
      ((dates, paths, none), qs))
    (hp : paths ≠ []) (hs : summary dates paths = some s) (hask : fl.askDelete = false)
    (hdel : fl.delete = false) :
    mainRun fl w = (.done,
      [.print "Check index\n"] ++ qs ++
        (if fl.showPath then paths.map fun path => Effect.print (path ++ "\n") else []) ++ s ++
        dates.map fun d => .print (graphiteIndexDeleteQuery fl.index gwr (some d) ++ "\n\n")) := by
  have hp' : ¬ paths.length = 0 := fun h => hp (List.length_eq_zero.mp h)
  simp only [mainRun, hv, hidx, if_true, hread, hq, ho, hl, planAndDelete, hs, hask, hdel,
    dateLoop_dry, after, if_neg hp', Bool.false_eq_true, if_false, List.append_assoc]

/-! ## Which pattern list goes where -/

theorem gateLoop_effects (index : String) (C : Int) (execErr : Nat → String → Option String)
    (n : Nat) (d : Date) (i : Nat) (query : String) (polls : List PollResult) :
    ∀ e ∈ (gateLoop index C execErr n d i query polls).2.1,
      (∀ q, e ≠ .query q) ∧ ∀ q err, e = .exec q err → q = query := by
  induction polls with
  | nil => simp [gateLoop]
  | cons r rest ih =>
    cases r with
    | failed err => simp [gateLoop]
    | rows merges =>
      simp only [gateLoop]
      by_cases hge : (countNotDone merges : Int) ≥ C
      · rw [if_pos hge]
        intro e he
        simp only [List.cons_append, List.nil_append, List.mem_cons, List.mem_append,
          List.mem_map, List.mem_singleton, List.not_mem_nil, or_false] at he
        rcases he with rfl | rfl | (⟨m, _, rfl⟩ | rfl) | he
        · simp
        · simp
        · simp
        · simp
        · exact ih e he
      · rw [if_neg hge]
        cases hx : execErr i query with
        | some err => simp
        | none =>
          intro e he
          simp only [List.cons_append, List.nil_append, List.mem_cons] at he
          rcases he with rfl | rfl | he
          · simp
          · simp
          · split_ifs at he
            · simp only [List.mem_singleton] at he
              subst he; simp
            · simp at he

theorem dateLoop_effects (index : String) (gwr : List String) (delete : Bool) (C : Int)
    (execErr : Nat → String → Option String) (n : Nat) (ds : List Date) (i : Nat)
    (polls : List PollResult) :
    ∀ e ∈ (dateLoop index gwr delete C execErr n ds i polls).2,
      (∀ q, e ≠ .query q) ∧
        ∀ q err, e = .exec q err → ∃ d ∈ ds, q = graphiteIndexDeleteQuery index gwr (some d) := by
  induction ds generalizing i polls with
  | nil => simp [dateLoop]
  | cons d ds ih =>
    have lift : ∀ e : Effect, ((∀ q, e ≠ Effect.query q) ∧ ∀ q err, e = Effect.exec q err →
        ∃ d' ∈ ds, q = graphiteIndexDeleteQuery index gwr (some d')) →
        (∀ q, e ≠ Effect.query q) ∧ ∀ q err, e = Effect.exec q err →
          ∃ d' ∈ d :: ds, q = graphiteIndexDeleteQuery index gwr (some d') := by
      intro e ⟨h1, h2⟩
      refine ⟨h1, fun q err hq => ?_⟩
      obtain ⟨d', hd', hq'⟩ := h2 q err hq
      exact ⟨d', List.mem_cons_of_mem _ hd', hq'⟩
    have fromGate : ∀ e ∈ (gateLoop index C execErr n d i
        (graphiteIndexDeleteQuery index gwr (some d)) polls).2.1,
        (∀ q, e ≠ .query q) ∧ ∀ q err, e = .exec q err →
          ∃ d' ∈ d :: ds, q = graphiteIndexDeleteQuery index gwr (some d') := by
      intro e he
      obtain ⟨h1, h2⟩ := gateLoop_effects index C execErr n d i _ polls e he
      exact ⟨h1, fun q err hq => ⟨d, List.mem_cons_self _ _, h2 q err hq⟩⟩
    simp only [dateLoop]
    split_ifs with hdel
    · split
      · next out effs rest heq =>
        rw [heq] at fromGate
        exact fromGate
      · next effs polls' heq =>
        rw [heq] at fromGate
        intro e he
        simp only [after, List.mem_append] at he
        rcases he with he | he
        · exact fromGate e he
        · exact lift e (ih _ _ e he)
    · intro e he
      simp only [after, List.mem_append, List.mem_singleton] at he
      rcases he with rfl | he
      · simp
      · exact lift e (ih _ _ e he)

/-- C2 (amended): whatever the reverse option, the enumeration queries of a
run are built from the forward patterns when the option is off and from the
reverse-augmented list when it is on, while every delete statement, executed
or printed by a dry run, is built from the reverse-augmented list. -/
theorem delete_always_reverse_augmented (fl : Flags) (w : World) (globs gwr : List String)
    (hread : readGlobs fl.globsFile w.globs = .ok (globs, gwr)) :
    (∀ q, Effect.query q ∈ (mainRun fl w).2 →
      q = graphiteIndexDateQuery fl.index (if fl.reverse then gwr else globs) fl.dateFilter ∨
      q = graphiteIndexPathQuery fl.index (if fl.reverse then gwr else globs) fl.dateFilter) ∧
    (∀ q err, Effect.exec q err ∈ (mainRun fl w).2 →
      ∃ d, q = graphiteIndexDeleteQuery fl.index gwr (some d)) ∧
    (∀ dates paths qs s, validateDateFilter fl.dateFilter = .ok () → fl.index.length > 0 →
      fl.query = false → w.db.openErr = none →
      graphiteIndexList w.db fl.index (if fl.reverse then gwr else globs) fl.dateFilter =
        ((dates, paths, none), qs) →
      paths ≠ [] → summary dates paths = some s → fl.askDelete = false → fl.delete = false →
      mainRun fl w = (.done,
        [.print "Check index\n"] ++ qs ++
          (if fl.showPath then paths.map fun path => Effect.print (path ++ "\n") else []) ++ s ++
          dates.map fun d =>
            .print (graphiteIndexDeleteQuery fl.index gwr (some d) ++ "\n\n"))) := by
  refine ⟨?_, ?_, ?_⟩
  · intro q hq
    rcases mainRun_shape fl w with h | ⟨globs', gwr', hr, pre, lp, heq, hpre, hlp⟩
    · rw [h] at hq; simp at hq
    · rw [hread] at hr
      injection hr with hr
      injection hr with hg hw
      subst hg; subst hw
      rw [heq] at hq
      rcases List.mem_append.mp hq with hq | hq
      · rcases hpre _ hq with h | h | h
        · simp [Effect.isPrint] at h
        · injection h with h; exact Or.inl h
        · injection h with h; exact Or.inr h
      · rcases hlp with h | ⟨del, dates, h⟩
        · rw [h] at hq; simp at hq
        · rw [h] at hq
          exact absurd rfl ((dateLoop_effects _ _ _ _ _ _ _ _ _ _ hq).1 q)
  · intro q err hq
    rcases mainRun_shape fl w with h | ⟨globs', gwr', hr, pre, lp, heq, hpre, hlp⟩
    · rw [h] at hq; simp at hq
    · rw [hread] at hr
      injection hr with hr
      injection hr with hg hw
      subst hg; subst hw
      rw [heq] at hq
      rcases List.mem_append.mp hq with hq | hq
      · rcases hpre _ hq with h | h | h
        · simp [Effect.isPrint] at h
        · simp at h
        · simp at h
      · rcases hlp with h | ⟨del, dates, h⟩
        · rw [h] at hq; simp at hq
        · rw [h] at hq
          obtain ⟨d, _, hd⟩ := (dateLoop_effects _ _ _ _ _ _ _ _ _ _ hq).2 q err rfl
          exact ⟨d, hd⟩
  · intro dates paths qs s hv hidx hq ho hl hp hs hask hdel
    exact mainRun_dry fl w globs gwr dates paths qs s hv hidx hread hq ho hl hp hs hask hdel

/-- The run in delete mode on the pattern `a.b` executes only statements over
`a.b` and `b.a`. -/
theorem delete_always_reverse_augmented_witness :
    readGlobs flagsDelete.globsFile worldOne.globs = .ok (["a.b"], ["a.b", "b.a"]) ∧
    (∀ q err, Effect.exec q err ∈ (mainRun flagsDelete worldOne).2 →
      ∃ d, q = graphiteIndexDeleteQuery "graphite_index" ["a.b", "b.a"] (some d)) :=
  ⟨rfl, (delete_always_reverse_augmented flagsDelete worldOne ["a.b"] ["a.b", "b.a"] rfl).2.1⟩

/-- C2, as stated, fails: with the reverse option off the enumeration queries
carry the forward pattern `a.b` only, and the printed delete statement carries
`a.b` and its reversed variant `b.a`. -/
theorem reverse_off_delete_has_reversed :
    flagsDry.reverse = false ∧
    (mainRun flagsDry worldOne).2 =
      [.print "Check index\n",
        .query "SELECT Date FROM graphite_index WHERE (Path like 'a.b') GROUP BY Date",
        .query "SELECT Path FROM graphite_index WHERE (Path like 'a.b') GROUP BY Path",
        .print "Read 1 paths in 1 days:", .print " 2020-02-01", .print "\n",
        .print "ALTER TABLE graphite_index  DELETE WHERE (Path like 'a.b' OR Path like 'b.a') AND Date='2020-02-01'\n\n"] ∧
    graphiteIndexDeleteQuery "graphite_index" ["a.b"] (some ⟨2020, 2, 1⟩) =
      "ALTER TABLE graphite_index  DELETE WHERE (Path like 'a.b') AND Date='2020-02-01'" := by
  decide

/-! ## Backoff -/

theorem sleepsOf_append (l1 l2 : List Effect) :
    sleepsOf (l1 ++ l2) = sleepsOf l1 ++ sleepsOf l2 := by
  simp [sleepsOf, List.filterMap_append]

theorem sleepsOf_reports (merges : List ClickhouseMutation) :
    sleepsOf (merges.map .reportMerge) = [] := by
  induction merges with
  | nil => rfl
  | cons m ms ih =>
    simp only [sleepsOf, List.map_cons, List.filterMap_cons] at ih ⊢
    exact ih

/-- The sleeps of the gate for one date: some number of waits of 10 seconds
each, then possibly the cooldown of 1 second. -/
theorem gateLoop_sleeps (index : String) (C : Int) (execErr : Nat → String → Option String)
    (n : Nat) (d : Date) (i : Nat) (query : String) (polls : List PollResult) :
    ∃ k, sleepsOf (gateLoop index C execErr n d i query polls).2.1 = List.replicate k 10 ∨
      sleepsOf (gateLoop index C execErr n d i query polls).2.1 = List.replicate k 10 ++ [1] := by
  induction polls with
  | nil => exact ⟨0, Or.inl rfl⟩
  | cons r rest ih =>
    cases r with
    | failed err => exact ⟨0, Or.inl rfl⟩
    | rows merges =>
      simp only [gateLoop]
      by_cases hge : (countNotDone merges : Int) ≥ C
      · rw [if_pos hge]
        obtain ⟨k, hk⟩ := ih
        refine ⟨k + 1, ?_⟩
        have hsplit : sleepsOf
            ([Effect.poll (mutationsQuery "default" index 0) (.rows merges),
              .print ("\nWait for merges complete before delete " ++ d.String ++ " (" ++
                fmtNat i ++ " of " ++ fmtNat n ++ ")\n")] ++
              merges.map .reportMerge ++ [.sleep 10] ++
              (gateLoop index C execErr n d i query rest).2.1) =
            10 :: sleepsOf (gateLoop index C execErr n d i query rest).2.1 := by
          rw [sleepsOf_append, sleepsOf_append, sleepsOf_append, sleepsOf_reports]
          rfl
        rw [hsplit, List.replicate_succ]
        rcases hk with hk | hk
        · left; rw [hk]
        · right; rw [hk]; rfl
      · rw [if_neg hge]
        cases hx : execErr i query with
        | some err => exact ⟨0, Or.inl rfl⟩
        | none =>
          by_cases hi : i < n - 1
          · exact ⟨0, Or.inr (by simp [hi, sleepsOf])⟩
          · exact ⟨0, Or.inl (by simp [hi, sleepsOf])⟩

/-- C4: every wait of the gate lasts 10 seconds, whatever the number of
consecutive waits: the sleeps for one date are some number of 10 second waits,
then possibly the 1 second cooldown. In delete mode with ceiling 1, when the
engine reports one unfinished mutation on two consecutive polls and none on
the third, the two sleeps are 10 and 10 seconds (the claim has 10 then 20). -/
theorem gate_backoff_stays_at_ten :
    (∀ (index : String) (C : Int) (execErr : Nat → String → Option String) (n : Nat) (d : Date)
      (i : Nat) (query : String) (polls : List PollResult),
      ∃ k, sleepsOf (gateLoop index C execErr n d i query polls).2.1 = List.replicate k 10 ∨
        sleepsOf (gateLoop index C execErr n d i query polls).2.1 =
          List.replicate k 10 ++ [1]) ∧
    sleepsOf (mainRun flagsDelete worldOne).2 = [10, 10] ∧
    (mainRun flagsDelete worldOne).1 = .done :=
  ⟨gateLoop_sleeps, by decide, by decide⟩

/-! ## End-to-end dry run -/

/-- C5, as stated, fails: `readGlobs` rejects the file with the lines `a.b.*`
and `c.*`, and the dry run on it ends fatally without any output. -/
theorem star_patterns_rejected :
    readGlobs "globs.txt" (.ok ["a.b.*", "c.*"]) = .error "invalid symbol in glob a.b.*" ∧
    mainRun flagsDry worldStar = (.fatal "invalid symbol in glob a.b.*", []) := by
  exact ⟨rfl, rfl⟩

theorem summary_two (d1 d2 : Date) (paths : List String) :
    ∃ s, summary [d1, d2] paths = some s := by
  unfold summary
  simp only [List.get?_cons_zero, List.length_cons, List.length_nil]
  by_cases h : (decide (d1.Year = 1970) && decide (d1.Month = 2) && decide (d1.Day = 12)) = true
  · simp [h]
  · simp [h]

/-- C5 (amended): `readGlobs` rejects the file with the lines `a.b.*` and
`c.*`; for the file with the lines `a.b.%` and `c.%` it succeeds, and a dry
run that finds two dates and at least one path prints exactly two delete
statements after the summary, each with the fragment
`(Path like 'a.b.%' OR Path like '%.b.a' OR Path like 'c.%' OR Path like '%.c')`
and its own date, the first date first, and executes nothing. -/
theorem dry_run_two_dates (fl : Flags) (w : World) (d1 d2 : Date) (paths : List String)
    (qs : List Effect)
    (hfile : w.globs = .ok ["a.b.%", "c.%"]) (hpath : fl.globsFile.length > 0)
    (hv : validateDateFilter fl.dateFilter = .ok ()) (hidx : fl.index.length > 0)
    (hq : fl.query = false) (hask : fl.askDelete = false) (hdel : fl.delete = false)
    (ho : w.db.openErr = none)
    (hl : graphiteIndexList w.db fl.index
        (if fl.reverse then ["a.b.%", "%.b.a", "c.%", "%.c"] else ["a.b.%", "c.%"])
        fl.dateFilter = (([d1, d2], paths, none), qs))
    (hp : paths ≠ []) :
    readGlobs fl.globsFile (.ok ["a.b.*", "c.*"]) = .error "invalid symbol in glob a.b.*" ∧
    readGlobs fl.globsFile w.globs = .ok (["a.b.%", "c.%"], ["a.b.%", "%.b.a", "c.%", "%.c"]) ∧
    (∃ s, summary [d1, d2] paths = some s ∧
      mainRun fl w = (.done,
        [.print "Check index\n"] ++ qs ++
          (if fl.showPath then paths.map fun path => Effect.print (path ++ "\n") else []) ++ s ++
          [.print ("ALTER TABLE " ++ fl.index ++
              "  DELETE WHERE (Path like 'a.b.%' OR Path like '%.b.a' OR Path like 'c.%' OR Path like '%.c') AND Date='"
              ++ d1.String ++ "'" ++ "\n\n"),
            .print ("ALTER TABLE " ++ fl.index ++
              "  DELETE WHERE (Path like 'a.b.%' OR Path like '%.b.a' OR Path like 'c.%' OR Path like '%.c') AND Date='"
              ++ d2.String ++ "'" ++ "\n\n")])) ∧
    ∀ q err, Effect.exec q err ∉ (mainRun fl w).2 := by
  have hne : ¬ fl.globsFile.length = 0 := by omega
  have hstar : readGlobs fl.globsFile (.ok ["a.b.*", "c.*"]) =
      .error "invalid symbol in glob a.b.*" := by
    simp only [readGlobs, if_neg hne]
    rfl
  have hread : readGlobs fl.globsFile w.globs =
      .ok (["a.b.%", "c.%"], ["a.b.%", "%.b.a", "c.%", "%.c"]) := by
    simp only [readGlobs, if_neg hne, hfile]
    rfl
  obtain ⟨s, hs⟩ := summary_two d1 d2 paths
  have hrun := mainRun_dry fl w _ _ [d1, d2] paths qs s hv hidx hread hq ho hl hp hs hask hdel
  have hstmt : ∀ d : Date,
      graphiteIndexDeleteQuery fl.index ["a.b.%", "%.b.a", "c.%", "%.c"] (some d) ++ "\n\n" =
      "ALTER TABLE " ++ fl.index ++
        "  DELETE WHERE (Path like 'a.b.%' OR Path like '%.b.a' OR Path like 'c.%' OR Path like '%.c') AND Date='"
        ++ d.String ++ "'" ++ "\n\n" := by
    intro d
    rw [deleteQuery_spelled _ _ _ (by simp)]
    apply String.ext
    simp only [String.data_append, List.append_assoc]
    rfl
  refine ⟨hstar, hread, ⟨s, hs, ?_⟩, ?_⟩
  · rw [hrun]
    simp only [List.map_cons, List.map_nil, hstmt]
  · intro q err hmem
    rw [hrun] at hmem
    simp only [List.mem_append, List.mem_cons, List.mem_singleton, List.mem_map,
      List.not_mem_nil, or_false, false_or] at hmem
    have hqs := graphiteIndexList_queries w.db fl.index
      (if fl.reverse then ["a.b.%", "%.b.a", "c.%", "%.c"] else ["a.b.%", "c.%"]) fl.dateFilter
    rw [hl] at hqs
    rcases hmem with (((h | h) | h) | h) | h
    · exact Effect.noConfusion h
    · rcases hqs _ h with h' | h' <;> exact Effect.noConfusion h'
    · split_ifs at h
      · simp at h
      · simp at h
    · have := summary_prints _ _ _ hs _ h
      simp [Effect.isPrint] at this
    · simp at h

/-- The dry run on the file `a.b.%`, `c.%` with the dates 2020-02-01 and
2020-02-02. -/
theorem dry_run_two_dates_witness :
    (∃ s, summary [⟨2020, 2, 1⟩, ⟨2020, 2, 2⟩] ["a.b.c"] = some s ∧
      mainRun flagsDry worldPercent = (.done,
        [.print "Check index\n"] ++
          [.query "SELECT Date FROM graphite_index WHERE (Path like 'a.b.%' OR Path like 'c.%') GROUP BY Date",
            .query "SELECT Path FROM graphite_index WHERE (Path like 'a.b.%' OR Path like 'c.%') GROUP BY Path"] ++
          [] ++ s ++
          [.print "ALTER TABLE graphite_index  DELETE WHERE (Path like 'a.b.%' OR Path like '%.b.a' OR Path like 'c.%' OR Path like '%.c') AND Date='2020-02-01'\n\n",
            .print "ALTER TABLE graphite_index  DELETE WHERE (Path like 'a.b.%' OR Path like '%.b.a' OR Path like 'c.%' OR Path like '%.c') AND Date='2020-02-02'\n\n"])) ∧
    ∀ q err, Effect.exec q err ∉ (mainRun flagsDry worldPercent).2 :=
  (dry_run_two_dates flagsDry worldPercent ⟨2020, 2, 1⟩ ⟨2020, 2, 2⟩ ["a.b.c"]
    [.query "SELECT Date FROM graphite_index WHERE (Path like 'a.b.%' OR Path like 'c.%') GROUP BY Date",
      .query "SELECT Path FROM graphite_index WHERE (Path like 'a.b.%' OR Path like 'c.%') GROUP BY Path"]
    rfl (by decide) rfl (by decide) rfl rfl rfl rfl rfl (by simp)).2.2

/-! ## Segment reversal is an involution -/

theorem splitOnP_no_sep {α : Type} (p : α → Bool) (xs : List α) :
    ∀ l ∈ xs.splitOnP p, ∀ y ∈ l, p y = false := by
  induction xs with
  | nil => simp
  | cons x xs ih =>
    rw [List.splitOnP_cons]
    by_cases hx : p x = true
    · rw [if_pos hx]
      intro l hl
      rcases List.mem_cons.mp hl with rfl | hl
      · simp
      · exact ih l hl
    · rw [if_neg hx]
      cases hs : xs.splitOnP p with
      | nil => exact absurd hs (List.splitOnP_ne_nil _ _)
      | cons h t =>
        rw [hs] at ih
        intro l hl
        simp only [List.modifyHead_cons, List.mem_cons] at hl
        rcases hl with rfl | hl
        · intro y hy
          rcases List.mem_cons.mp hy with rfl | hy
          · simpa using hx
          · exact ih h (List.mem_cons_self _ _) y hy
        · exact ih l (List.mem_cons_of_mem _ hl)

theorem splitOn_no_sep (c : Char) (xs : List Char) : ∀ l ∈ xs.splitOn c, c ∉ l := by
  intro l hl hc
  have := splitOnP_no_sep (· == c) xs l hl c hc
  simp at this

theorem splitOn_ne_nil (c : Char) (xs : List Char) : xs.splitOn c ≠ [] :=
  List.splitOnP_ne_nil _ _

/-- The function `reversePath` in terms of list reversal. -/
theorem reversePath_data (p : String) :
    (reversePath p).data = ['.'].intercalate (p.data.splitOn '.').reverse := by
  simp only [reversePath, swapLoop_eq_reverse]

theorem reversePath_twice (p : String) : reversePath (reversePath p) = p := by
  apply String.ext
  rw [reversePath_data, reversePath_data,
    List.splitOn_intercalate _ '.'
      (fun l hl => splitOn_no_sep '.' p.data l (List.mem_reverse.mp hl))
      (by simpa using splitOn_ne_nil '.' p.data),
    List.reverse_reverse, List.intercalate_splitOn]

/-- C13: `reversePath` is an involution: for every string, with or without
dots, empty or not, with leading, trailing or consecutive dots, reversing the
segments twice gives the string back. -/
theorem reversePath_involution (p : String) : reversePath (reversePath p) = p :=
  reversePath_twice p

/-! ## Enumeration statements -/

theorem length_pos_iff_ne_empty (f : String) : f.length > 0 ↔ f ≠ "" := by
  constructor
  · intro h hf
    subst hf
    simp at h
  · intro h
    rcases Nat.eq_zero_or_pos f.length with h0 | h0
    · exact absurd (String.ext (List.length_eq_zero.mp h0)) h
    · exact h0

/-- C14: for every index name, non-empty pattern list and date filter `f`, the
date and the path enumeration statements are
`SELECT <X> FROM <index> WHERE <predicate> GROUP BY <X>` with `X = Date` and
`X = Path`, over the same predicate: the pattern fragment, followed by
` AND (f)` exactly when `f` is not empty. The white space before `GROUP BY`
is one space without a date filter and two spaces with one, in both
statements alike; they differ only in the column. -/
theorem enumeration_queries_same_predicate (index : String) (ps : List String) (f : String)
    (hps : ps ≠ []) :
    graphiteIndexDateQuery index ps f =
      enumerationStatement "Date" index (enumerationPredicate ps f)
        (if f = "" then " " else "  ") ∧
    graphiteIndexPathQuery index ps f =
      enumerationStatement "Path" index (enumerationPredicate ps f)
        (if f = "" then " " else "  ") := by
  obtain ⟨p, ps', rfl⟩ := List.exists_cons_of_ne_nil hps
  by_cases hf : f = ""
  · subst hf
    constructor <;>
    · simp only [graphiteIndexDateQuery, graphiteIndexPathQuery, filter_eq_cases, filterSpec,
        dateClause, enumerationStatement, enumerationPredicate, if_true]
      apply String.ext
      simp only [String.data_append, List.append_assoc]
      rfl
  · have hlen : f.length > 0 := (length_pos_iff_ne_empty f).mpr hf
    constructor <;>
    · simp only [graphiteIndexDateQuery, graphiteIndexPathQuery, filter_eq_cases, filterSpec,
        dateClause, enumerationStatement, enumerationPredicate, if_pos hlen, if_neg hf]
      apply String.ext
      simp only [String.data_append, List.append_assoc]
      rfl

/-- The two enumeration statements for the pattern `a.%` and a date filter. -/
theorem enumeration_queries_same_predicate_witness :
    graphiteIndexDateQuery "graphite_index" ["a.%"] "Date > '2020-02-01'" =
      "SELECT Date FROM graphite_index WHERE (Path like 'a.%') AND (Date > '2020-02-01')  GROUP BY Date" ∧
    graphiteIndexPathQuery "graphite_index" ["a.%"] "Date > '2020-02-01'" =
      "SELECT Path FROM graphite_index WHERE (Path like 'a.%') AND (Date > '2020-02-01')  GROUP BY Path" :=
  ⟨(enumeration_queries_same_predicate "graphite_index" ["a.%"] "Date > '2020-02-01'"
      (by decide)).1.trans (by decide),
    (enumeration_queries_same_predicate "graphite_index" ["a.%"] "Date > '2020-02-01'"
      (by decide)).2.trans (by decide)⟩

/-! ## The pattern file, whole -/

theorem hasForbidden_iff (t : String) :
    hasForbidden t = true ↔ ∃ c ∈ t.data, c ∈ forbiddenBySpec := by
  rw [forbiddenBySpec_eq]
  simp [hasForbidden]

theorem length_zero_iff_empty (t : String) : t.length = 0 ↔ t = "" := by
  constructor
  · intro h
    exact String.ext (List.length_eq_zero.mp h)
  · intro h
    subst h
    rfl

theorem trimmedLines_cons (line : String) (rest : List String) :
    trimmedLines (line :: rest) =
      if trimSpaces line = "" then trimmedLines rest
      else trimSpaces line :: trimmedLines rest := by
  unfold trimmedLines
  by_cases h : trimSpaces line = "" <;> simp [List.filter_cons, h]

/-- The scanner loop succeeds exactly on files whose trimmed non-empty lines
all pass the checks, provided something is collected; it then appends the
trimmed lines, and each of them followed by its reversed variant. -/
theorem scanGlobs_ok (lines globs gwr : List String)
    (hv : ∀ t ∈ trimmedLines lines, validGlob t) (hne : globs ++ trimmedLines lines ≠ []) :
    scanGlobs lines globs gwr =
      .ok (globs ++ trimmedLines lines, gwr ++ withReversed (trimmedLines lines)) := by
  induction lines generalizing globs gwr with
  | nil =>
    have hg : ¬ globs.length = 0 := by
      intro h
      apply hne
      simp [trimmedLines, List.length_eq_zero.mp h]
    simp [scanGlobs, trimmedLines, withReversed, hg]
  | cons line rest ih =>
    rw [trimmedLines_cons] at hv hne ⊢
    simp only [scanGlobs]
    by_cases h0 : trimSpaces line = ""
    · rw [if_pos h0] at hv hne ⊢
      rw [if_pos ((length_zero_iff_empty _).mpr h0)]
      exact ih globs gwr hv hne
    · rw [if_neg h0] at hv hne ⊢
      rw [if_neg (fun h => h0 ((length_zero_iff_empty _).mp h))]
      obtain ⟨h1, h2, h3⟩ := hv _ (List.mem_cons_self _ _)
      have hw : ¬ (trimSpaces line = "%" ∨ trimSpaces line = "?") := by
        rintro (h | h)
        · exact h1 h
        · exact h2 h
      have hf : ¬ hasForbidden (trimSpaces line) = true := by
        rw [hasForbidden_iff]
        rintro ⟨c, hc, hcf⟩
        exact h3 c hc hcf
      rw [if_neg hw, if_neg hf]
      rw [ih (globs ++ [trimSpaces line]) (gwr ++ [trimSpaces line, reversePath (trimSpaces line)])
        (fun t ht => hv t (List.mem_cons_of_mem _ ht)) (by simp)]
      simp [withReversed]

theorem scanGlobs_error (lines globs gwr : List String)
    (h : (¬ ∀ t ∈ trimmedLines lines, validGlob t) ∨ globs ++ trimmedLines lines = []) :
    ∃ msg, scanGlobs lines globs gwr = .error msg := by
  induction lines generalizing globs gwr with
  | nil =>
    rcases h with h | h
    · exact absurd (by simp [trimmedLines]) h
    · have hg : globs = [] := by simpa [trimmedLines] using h
      subst hg
      exact ⟨_, rfl⟩
  | cons line rest ih =>
    rw [trimmedLines_cons] at h
    simp only [scanGlobs]
    by_cases h0 : trimSpaces line = ""
    · rw [if_pos h0] at h
      rw [if_pos ((length_zero_iff_empty _).mpr h0)]
      exact ih globs gwr h
    · rw [if_neg h0] at h
      rw [if_neg (fun h => h0 ((length_zero_iff_empty _).mp h))]
      by_cases hw : trimSpaces line = "%" ∨ trimSpaces line = "?"
      · rw [if_pos hw]; exact ⟨_, rfl⟩
      · rw [if_neg hw]
        by_cases hf : hasForbidden (trimSpaces line) = true
        · rw [if_pos hf]; exact ⟨_, rfl⟩
        · rw [if_neg hf]
          apply ih
          left
          rcases h with h | h
          · intro hall
            apply h
            intro t ht
            rcases List.mem_cons.mp ht with rfl | ht
            · refine ⟨fun e => hw (Or.inl e), fun e => hw (Or.inr e), ?_⟩
              intro c hc hcf
              exact hf ((hasForbidden_iff _).mpr ⟨c, hc, hcf⟩)
            · exact hall t ht
          · simp at h

theorem withReversed_length (ts : List String) : (withReversed ts).length = 2 * ts.length := by
  induction ts with
  | nil => rfl
  | cons t ts ih => simp [withReversed, ih]; omega

/-- The function `readGlobs` on a file that could be opened, against the
reference reading of the tokens that the scanner delivers. -/
theorem readGlobs_spec (path : String) (lines : List String) (hpath : path ≠ "") :
    ((∃ r, readGlobs path (.ok lines) = .ok r) ↔
      (trimmedLines (scannerTokens lines) ≠ [] ∧
        ∀ t ∈ trimmedLines (scannerTokens lines), validGlob t)) ∧
    ∀ globs gwr, readGlobs path (.ok lines) = .ok (globs, gwr) →
      globs = trimmedLines (scannerTokens lines) ∧
        gwr = withReversed (trimmedLines (scannerTokens lines)) ∧
        gwr.length = 2 * (trimmedLines (scannerTokens lines)).length := by
  have hlen : ¬ path.length = 0 := fun h => hpath ((length_zero_iff_empty _).mp h)
  have hrd : readGlobs path (.ok lines) = scanGlobs (scannerTokens lines) [] [] := by
    simp [readGlobs, hlen]
  rw [hrd]
  generalize scannerTokens lines = toks
  by_cases hgood : trimmedLines toks ≠ [] ∧ ∀ t ∈ trimmedLines toks, validGlob t
  · have hok := scanGlobs_ok toks [] [] hgood.2 (by simpa using hgood.1)
    simp only [List.nil_append] at hok
    rw [hok]
    refine ⟨⟨fun _ => hgood, fun _ => ⟨_, rfl⟩⟩, ?_⟩
    intro globs gwr h
    injection h with h
    injection h with h1 h2
    subst h1; subst h2
    exact ⟨rfl, rfl, withReversed_length _⟩
  · obtain ⟨msg, herr⟩ := scanGlobs_error toks [] [] (by
      by_cases hall : ∀ t ∈ trimmedLines toks, validGlob t
      · right
        simp only [List.nil_append]
        by_contra hne
        exact hgood ⟨hne, hall⟩
      · left; exact hall)
    rw [herr]
    refine ⟨⟨fun ⟨r, hr⟩ => (by cases hr), fun h => absurd h hgood⟩, ?_⟩
    intro globs gwr h
    cases h

/-! ## Reversal keeps a pattern valid -/

theorem intercalate_cons_cons {α : Type} (sep a b : List α) (rest : List (List α)) :
    sep.intercalate (a :: b :: rest) = a ++ sep ++ sep.intercalate (b :: rest) := by
  simp [List.intercalate, List.intersperse]

theorem intercalate_append_singleton {α : Type} (sep a : List α) (xs : List (List α))
    (hxs : xs ≠ []) : sep.intercalate (xs ++ [a]) = sep.intercalate xs ++ sep ++ a := by
  induction xs with
  | nil => exact absurd rfl hxs
  | cons x xs ih =>
    cases xs with
    | nil => simp [List.intercalate, List.intersperse]
    | cons y ys =>
      have := ih (by simp)
      simp only [List.cons_append] at this ⊢
      rw [intercalate_cons_cons, this, intercalate_cons_cons]
      simp

theorem intercalate_reverse_perm {α : Type} (sep : List α) (xs : List (List α)) :
    (sep.intercalate xs.reverse).Perm (sep.intercalate xs) := by
  induction xs with
  | nil => simp
  | cons a xs ih =>
    cases xs with
    | nil => simp
    | cons b rest =>
      rw [List.reverse_cons, intercalate_append_singleton _ _ _ (by simp),
        intercalate_cons_cons]
      have h1 : (sep.intercalate (b :: rest).reverse ++ sep ++ a).Perm
          (sep.intercalate (b :: rest) ++ sep ++ a) :=
        (ih.append_right sep).append_right a
      refine h1.trans ?_
      have h2 : (sep.intercalate (b :: rest) ++ sep ++ a).Perm
          (a ++ (sep.intercalate (b :: rest) ++ sep)) := List.perm_append_comm
      refine h2.trans ?_
      rw [List.append_assoc a sep]
      exact List.Perm.append_left a List.perm_append_comm

/-- The characters of the reversed path are those of the path, rearranged. -/
theorem reversePath_perm (g : String) : (reversePath g).data.Perm g.data := by
  rw [reversePath_data]
  have := intercalate_reverse_perm ['.'] (g.data.splitOn '.')
  rwa [List.intercalate_splitOn] at this

theorem reversePath_length (g : String) : (reversePath g).length = g.length :=
  (reversePath_perm g).length_eq

theorem utf8ByteSize_go_perm (l1 l2 : List Char) (h : l1.Perm l2) :
    String.utf8ByteSize.go l1 = String.utf8ByteSize.go l2 := by
  induction h with
  | nil => rfl
  | cons x _ ih => simp only [String.utf8ByteSize.go, ih]
  | swap x y l => simp only [String.utf8ByteSize.go]; omega
  | trans _ _ ih1 ih2 => exact ih1.trans ih2

/-- The reversed path has as many bytes as the path (the `len` of Go). -/
theorem reversePath_bytes (g : String) : (reversePath g).utf8ByteSize = g.utf8ByteSize := by
  have h := reversePath_perm g
  generalize reversePath g = r at h
  cases r; cases g
  exact utf8ByteSize_go_perm _ _ h

theorem reversePath_valid (g : String) (hne : g ≠ "") (hv : validGlob g) :
    reversePath g ≠ "" ∧ validGlob (reversePath g) := by
  have hp := reversePath_perm g
  obtain ⟨h1, h2, h3⟩ := hv
  have single : ∀ c : Char, reversePath g = String.mk [c] → g = String.mk [c] := by
    intro c hc
    rw [hc] at hp
    have := List.perm_singleton.mp hp.symm
    exact String.ext this
  refine ⟨?_, ?_, ?_, ?_⟩
  · intro h
    apply hne
    have hl := reversePath_length g
    rw [h] at hl
    exact (length_zero_iff_empty g).mp hl.symm
  · intro h
    exact h1 (single '%' h)
  · intro h
    exact h2 (single '?' h)
  · intro c hc
    exact h3 c (hp.mem_iff.mp hc)

theorem withReversed_mem (ts : List String) (t : String) (ht : t ∈ withReversed ts) :
    ∃ u ∈ ts, t = u ∨ t = reversePath u := by
  induction ts with
  | nil => simp [withReversed] at ht
  | cons a ts ih =>
    simp only [withReversed, List.mem_cons] at ht
    rcases ht with rfl | rfl | ht
    · exact ⟨t, List.mem_cons_self _ _, Or.inl rfl⟩
    · exact ⟨a, List.mem_cons_self _ _, Or.inr rfl⟩
    · obtain ⟨u, hu, h⟩ := ih ht
      exact ⟨u, List.mem_cons_of_mem _ hu, h⟩

/-- C20: for every pattern that passes the per-line checks of `readGlobs` (not
empty, not the bare `%` or `?`, no forbidden character), its reversed variant
passes the same checks and has the same length, in characters and in bytes;
hence no element of the reverse-augmented list returned by `readGlobs`
contains a single quote. -/
theorem reversePath_keeps_valid (g : String) (hne : g ≠ "") (hv : validGlob g) :
    (reversePath g ≠ "" ∧ validGlob (reversePath g) ∧ (reversePath g).length = g.length ∧
      (reversePath g).utf8ByteSize = g.utf8ByteSize) ∧
    ∀ (path : String) (file : Except String (List String)) (globs gwr : List String),
      readGlobs path file = .ok (globs, gwr) → ∀ t ∈ gwr, '\'' ∉ t.data := by
  refine ⟨⟨(reversePath_valid g hne hv).1, (reversePath_valid g hne hv).2,
    reversePath_length g, reversePath_bytes g⟩, ?_⟩
  intro path file globs gwr hread t ht
  have hpath : path ≠ "" := by
    intro h
    subst h
    simp [readGlobs] at hread
  cases file with
  | error e => simp [readGlobs, (length_zero_iff_empty path).not.mpr hpath] at hread
  | ok lines =>
    have hspec := readGlobs_spec path lines hpath
    obtain ⟨_, hgwr, _⟩ := hspec.2 globs gwr hread
    have hvalid := (hspec.1.mp ⟨_, hread⟩).2
    have hnonempty : ∀ u ∈ trimmedLines (scannerTokens lines), u ≠ "" := by
      intro u hu
      simp only [trimmedLines, List.mem_filter] at hu
      simpa using hu.2
    rw [hgwr] at ht
    obtain ⟨u, hu, h⟩ := withReversed_mem _ t ht
    have hq : '\'' ∈ forbiddenBySpec := by decide
    rcases h with rfl | rfl
    · exact fun hc => (hvalid _ hu).2.2 _ hc hq
    · exact fun hc => (reversePath_valid u (hnonempty u hu) (hvalid u hu)).2.2.2 _ hc hq

/-- The pattern `a.b.%` and its reversed variant `%.b.a`. -/
theorem reversePath_keeps_valid_witness :
    reversePath "a.b.%" ≠ "" ∧ validGlob (reversePath "a.b.%") ∧
      (reversePath "a.b.%").length = "a.b.%".length ∧
      (reversePath "a.b.%").utf8ByteSize = "a.b.%".utf8ByteSize :=
  (reversePath_keeps_valid "a.b.%" (by decide)
    ⟨by decide, by decide, by decide⟩).1

/-! ## The text of a date -/

theorem digitChar_eq_digitOf (k : Nat) (hk : k < 10) : Nat.digitChar k = digitOf k := by
  interval_cases k <;> rfl

theorem digitOf_mod (k : Nat) : digitOf (k % 10) = digitOf k := by
  simp [digitOf]

theorem digitOf_isDigit (k : Nat) : (digitOf k).isDigit = true := by
  rw [← digitOf_mod]
  have : k % 10 < 10 := Nat.mod_lt _ (by decide)
  interval_cases (k % 10) <;> rfl

theorem digitOf_inj (a b : Nat) (h : digitOf a = digitOf b) : a % 10 = b % 10 := by
  rw [← digitOf_mod a, ← digitOf_mod b] at h
  have ha : a % 10 < 10 := Nat.mod_lt _ (by decide)
  have hb : b % 10 < 10 := Nat.mod_lt _ (by decide)
  revert h
  generalize a % 10 = x at ha ⊢
  generalize b % 10 = y at hb ⊢
  interval_cases x <;> interval_cases y <;> first | (intro _; rfl) | (intro h; exact absurd h (by decide))

theorem toDigitsCore_small (fuel n : Nat) (ds : List Char) (hn : n < 10) :
    Nat.toDigitsCore 10 (fuel + 1) n ds = Nat.digitChar n :: ds := by
  have h1 : n / 10 = 0 := by omega
  have h2 : n % 10 = n := by omega
  simp [Nat.toDigitsCore, h1, h2]

theorem toDigitsCore_step (fuel n : Nat) (ds : List Char) (hn : 10 ≤ n) :
    Nat.toDigitsCore 10 (fuel + 1) n ds =
      Nat.toDigitsCore 10 fuel (n / 10) (Nat.digitChar (n % 10) :: ds) := by
  have h1 : n / 10 ≠ 0 := by omega
  simp [Nat.toDigitsCore, h1]

theorem toDigitsCore_one (fuel n : Nat) (ds : List Char) (hf : 1 ≤ fuel) (hn : n < 10) :
    Nat.toDigitsCore 10 fuel n ds = digitOf n :: ds := by
  obtain ⟨f, rfl⟩ : ∃ f, fuel = f + 1 := ⟨fuel - 1, by omega⟩
  rw [toDigitsCore_small _ _ _ hn, digitChar_eq_digitOf _ hn]

theorem toDigitsCore_more (fuel n : Nat) (ds : List Char) (hf : 1 ≤ fuel) (hn : 10 ≤ n) :
    Nat.toDigitsCore 10 fuel n ds = Nat.toDigitsCore 10 (fuel - 1) (n / 10) (digitOf n :: ds) := by
  obtain ⟨f, rfl⟩ : ∃ f, fuel = f + 1 := ⟨fuel - 1, by omega⟩
  rw [toDigitsCore_step _ _ _ hn, digitChar_eq_digitOf _ (Nat.mod_lt _ (by decide)), digitOf_mod]
  rfl

theorem digitOf_zero_of_lt (n k : Nat) (h : n < k) : digitOf (n / k) = '0' := by
  rw [Nat.div_eq_of_lt h]
  rfl

/-- The decimal digits of a number below 10000, padded to four. -/
theorem padZero_four (n : Nat) (hn : n < 10000) :
    padZero 4 (Nat.toDigits 10 n) =
      [digitOf (n / 1000), digitOf (n / 100), digitOf (n / 10), digitOf n] := by
  unfold Nat.toDigits
  by_cases h1 : n < 10
  · rw [toDigitsCore_one _ _ _ (by omega) h1, digitOf_zero_of_lt n 1000 (by omega),
      digitOf_zero_of_lt n 100 (by omega), digitOf_zero_of_lt n 10 (by omega)]
    rfl
  · rw [toDigitsCore_more _ _ _ (by omega) (by omega)]
    by_cases h2 : n < 100
    · rw [toDigitsCore_one _ _ _ (by omega) (by omega), digitOf_zero_of_lt n 1000 (by omega),
        digitOf_zero_of_lt n 100 (by omega)]
      rfl
    · rw [toDigitsCore_more _ _ _ (by omega) (by omega)]
      have e2 : n / 10 / 10 = n / 100 := by omega
      by_cases h3 : n < 1000
      · rw [toDigitsCore_one _ _ _ (by omega) (by omega), e2,
          digitOf_zero_of_lt n 1000 (by omega)]
        rfl
      · rw [toDigitsCore_more _ _ _ (by omega) (by omega),
          toDigitsCore_one _ _ _ (by omega) (by omega), e2]
        have e3 : n / 100 / 10 = n / 1000 := by omega
        rw [e3]
        rfl

/-- The decimal digits of a number below 100, padded to two. -/
theorem padZero_two (n : Nat) (hn : n < 100) :
    padZero 2 (Nat.toDigits 10 n) = [digitOf (n / 10), digitOf n] := by
  unfold Nat.toDigits
  by_cases h1 : n < 10
  · rw [toDigitsCore_one _ _ _ (by omega) h1, digitOf_zero_of_lt n 10 (by omega)]
    rfl
  · rw [toDigitsCore_more _ _ _ (by omega) (by omega),
      toDigitsCore_one _ _ _ (by omega) (by omega)]
    rfl

theorem fmtZeroPad_four (n : Int) (h0 : 0 ≤ n) (h1 : n ≤ 9999) :
    fmtZeroPad 4 n =
      String.mk [digitOf (n.toNat / 1000), digitOf (n.toNat / 100), digitOf (n.toNat / 10),
        digitOf n.toNat] := by
  have : ¬ n < 0 := by omega
  simp only [fmtZeroPad, if_neg this]
  rw [padZero_four _ (by omega)]

theorem fmtZeroPad_two (n : Int) (h0 : 0 ≤ n) (h1 : n ≤ 99) :
    fmtZeroPad 2 n = String.mk [digitOf (n.toNat / 10), digitOf n.toNat] := by
  have : ¬ n < 0 := by omega
  simp only [fmtZeroPad, if_neg this]
  rw [padZero_two _ (by omega)]

/-- The text of a date in range. -/
theorem Date.String_inRange (d : Date) (h : d.inRange) :
    d.String = isoForm d.Year.toNat d.Month.toNat d.Day.toNat := by
  obtain ⟨h1, h2, h3, h4, h5, h6⟩ := h
  simp only [Date.String, fmtZeroPad_four _ h1 h2, fmtZeroPad_two _ (by omega : 0 ≤ d.Month)
    (by omega), fmtZeroPad_two _ (by omega : 0 ≤ d.Day) (by omega), isoForm]
  rfl

theorem isoForm_inj (y m d y' m' d' : Nat) (hy : y < 10000) (hm : m < 100) (hd : d < 100)
    (hy' : y' < 10000) (hm' : m' < 100) (hd' : d' < 100)
    (h : isoForm y m d = isoForm y' m' d') : y = y' ∧ m = m' ∧ d = d' := by
  have hdata := congrArg String.data h
  simp only [isoForm, List.cons.injEq, and_true, true_and] at hdata
  obtain ⟨a1, a2, a3, a4, b1, b2, c1, c2⟩ := hdata
  have := digitOf_inj _ _ a1
  have := digitOf_inj _ _ a2
  have := digitOf_inj _ _ a3
  have := digitOf_inj _ _ a4
  have := digitOf_inj _ _ b1
  have := digitOf_inj _ _ b2
  have := digitOf_inj _ _ c1
  have := digitOf_inj _ _ c2
  refine ⟨by omega, by omega, by omega⟩

/-- C17: for every date with `0 <= Year <= 9999`, `1 <= Month <= 12` and
`1 <= Day <= 31`, the text of the date is the ten characters `YYYY-MM-DD`,
zero padded; distinct dates of that range have distinct texts; and the text in
single quotes matches the date literal pattern of the filter validator. -/
theorem Date_String_form (d : Date) (h : d.inRange) :
    d.String = isoForm d.Year.toNat d.Month.toNat d.Day.toNat ∧
    d.String.length = 10 ∧
    (∀ d' : Date, d'.inRange → d'.String = d.String → d' = d) ∧
    isDateLiteral ("'" ++ d.String ++ "'") = true := by
  have hs := Date.String_inRange d h
  refine ⟨hs, ?_, ?_, ?_⟩
  · rw [hs]; rfl
  · intro d' h' heq
    rw [hs, Date.String_inRange d' h'] at heq
    obtain ⟨h1, h2, h3, h4, h5, h6⟩ := h
    obtain ⟨g1, g2, g3, g4, g5, g6⟩ := h'
    obtain ⟨e1, e2, e3⟩ := isoForm_inj _ _ _ _ _ _ (by omega) (by omega) (by omega) (by omega)
      (by omega) (by omega) heq
    cases d; cases d'
    simp only [Date.mk.injEq] at *
    refine ⟨by omega, by omega, by omega⟩
  · rw [hs]
    simp [isDateLiteral, isoForm, digitOf_isDigit]

/-- The date 2020-02-01. -/
theorem Date_String_form_witness :
    (⟨2020, 2, 1⟩ : Date).String = "2020-02-01" ∧
      isDateLiteral ("'" ++ (⟨2020, 2, 1⟩ : Date).String ++ "'") = true :=
  ⟨(Date_String_form ⟨2020, 2, 1⟩
      ⟨by decide, by decide, by decide, by decide, by decide, by decide⟩).1.trans (by decide),
    (Date_String_form ⟨2020, 2, 1⟩
      ⟨by decide, by decide, by decide, by decide, by decide, by decide⟩).2.2.2⟩

/-! ## From enumeration to the loop -/

theorem optional_some (c : Prop) [Decidable c] (o : Option Date) (g : Date → String)
    (h : c → ∃ d, o = some d) :
    ∃ es, (if c then o.map (fun d => [Effect.print (g d)]) else some []) = some es := by
  by_cases hc : c
  · obtain ⟨d, hd⟩ := h hc
    exact ⟨_, by rw [if_pos hc, hd]; rfl⟩
  · exact ⟨_, by rw [if_neg hc]⟩

/-- The summary step fails exactly on an empty list of dates. -/
theorem summary_eq_none_iff (dates : List Date) (paths : List String) :
    summary dates paths = none ↔ dates = [] := by
  constructor
  · intro h
    cases dates with
    | nil => rfl
    | cons d0 rest =>
      exfalso
      unfold summary at h
      simp only [List.get?_cons_zero] at h
      obtain ⟨e2, h2⟩ := optional_some
        ((if (decide (d0.Year = 1970) && decide (d0.Month = 2) && decide (d0.Day = 12)) = true
          then 1 else 0) < (d0 :: rest).length)
        ((d0 :: rest).get? (if (decide (d0.Year = 1970) && decide (d0.Month = 2) &&
          decide (d0.Day = 12)) = true then 1 else 0))
        (fun di => " " ++ di.String)
        (fun hlt => ⟨_, List.get?_eq_get hlt⟩)
      obtain ⟨e3, h3⟩ := optional_some
        ((if (decide (d0.Year = 1970) && decide (d0.Month = 2) && decide (d0.Day = 12)) = true
          then 1 else 0) ≠ (d0 :: rest).length - 1)
        ((d0 :: rest).get? ((d0 :: rest).length - 1))
        (fun dl => " - " ++ dl.String)
        (fun _ => ⟨_, List.get?_eq_get (by simp)⟩)
      rw [h2, h3] at h
      cases h
  · intro h
    subst h
    rfl

theorem summaryOutput_of_some (dates : List Date) (paths : List String) (s : List Effect)
    (h : summary dates paths = some s) : summaryOutput dates paths = s := by
  simp [summaryOutput, h]

theorem summaryOutput_prints (dates : List Date) (paths : List String) :
    ∀ e ∈ summaryOutput dates paths, e.isPrint = true := by
  unfold summaryOutput
  cases h : summary dates paths with
  | none =>
    intro e he
    simp only [List.mem_singleton] at he
    subst he; rfl
  | some s => exact summary_prints dates paths s h

/-- A run that enumerates at least one path and one date, and is not
canceled, writes the check line, the queries, the paths if asked, the summary
and the prompt if asked, and then runs the per-date loop. -/
theorem mainRun_loop (fl : Flags) (w : World) (globs gwr : List String) (dates : List Date)
    (paths : List String) (qs : List Effect)
    (hv : validateDateFilter fl.dateFilter = .ok ()) (hidx : fl.index.length > 0)
    (hread : readGlobs fl.globsFile w.globs = .ok (globs, gwr)) (hq : fl.query = false)
    (ho : w.db.openErr = none)
    (hl : graphiteIndexList w.db fl.index (if fl.reverse then gwr else globs) fl.dateFilter =
      ((dates, paths, none), qs))
    (hp : paths ≠ []) (hd : dates ≠ []) (hrun : fl.askDelete = false ∨ w.stdin = some "Y") :
    mainRun fl w = after
      ([.print "Check index\n"] ++ qs ++
        (if fl.showPath then paths.map fun path => Effect.print (path ++ "\n") else []) ++
        summaryOutput dates paths ++
        (if fl.askDelete then [.print "Enter Y for start delete: "] else []))
      (dateLoop fl.index gwr (fl.askDelete || fl.delete) fl.maxMerges w.db.execErr dates.length
        dates 0 w.db.polls) := by
  have hp' : ¬ paths.length = 0 := fun h => hp (List.length_eq_zero.mp h)
  obtain ⟨s, hs⟩ : ∃ s, summary dates paths = some s := by
    cases h : summary dates paths with
    | none => exact absurd ((summary_eq_none_iff dates paths).mp h) hd
    | some s => exact ⟨s, rfl⟩
  rw [summaryOutput_of_some _ _ _ hs]
  by_cases hask : fl.askDelete = true
  · have hy : w.stdin = some "Y" := by
      rcases hrun with h | h
      · rw [hask] at h; cases h
      · exact h
    simp only [mainRun, hv, hidx, if_true, hread, hq, ho, hl, planAndDelete, hs, hask, hy,
      after, if_neg hp', Bool.false_eq_true, if_false, List.append_assoc, Bool.true_or]
  · have hask' : fl.askDelete = false := by simpa using hask
    simp only [mainRun, hv, hidx, if_true, hread, hq, ho, hl, planAndDelete, hs, hask',
      after, if_neg hp', Bool.false_eq_true, if_false, List.append_assoc, Bool.false_or,
      List.append_nil]

/-- The run with an empty list of dates and at least one path panics in the
summary step. -/
theorem mainRun_no_dates (fl : Flags) (w : World) (globs gwr : List String)
    (paths : List String) (qs : List Effect)
    (hv : validateDateFilter fl.dateFilter = .ok ()) (hidx : fl.index.length > 0)
    (hread : readGlobs fl.globsFile w.globs = .ok (globs, gwr)) (hq : fl.query = false)
    (ho : w.db.openErr = none)
    (hl : graphiteIndexList w.db fl.index (if fl.reverse then gwr else globs) fl.dateFilter =
      (([], paths, none), qs))
    (hp : paths ≠ []) :
    mainRun fl w = (.panic,
      [.print "Check index\n"] ++ qs ++
        (if fl.showPath then paths.map fun path => Effect.print (path ++ "\n") else []) ++
        summaryOutput [] paths) := by
  have hp' : ¬ paths.length = 0 := fun h => hp (List.length_eq_zero.mp h)
  have hs : summary [] paths = none := rfl
  simp only [mainRun, hv, hidx, if_true, hread, hq, ho, hl, planAndDelete, hs, summaryOutput,
    after, if_neg hp', List.append_assoc]
  rfl

/-- The run whose enumeration finds no path. -/
theorem mainRun_no_path (fl : Flags) (w : World) (globs gwr : List String) (dates : List Date)
    (qs : List Effect)
    (hv : validateDateFilter fl.dateFilter = .ok ()) (hidx : fl.index.length > 0)
    (hread : readGlobs fl.globsFile w.globs = .ok (globs, gwr)) (hq : fl.query = false)
    (ho : w.db.openErr = none)
    (hl : graphiteIndexList w.db fl.index (if fl.reverse then gwr else globs) fl.dateFilter =
      ((dates, [], none), qs)) :
    mainRun fl w = (.fatal "No path found\n", [.print "Check index\n"] ++ qs) := by
  simp only [mainRun, hv, hidx, if_true, hread, hq, ho, hl, after, List.length_nil,
    List.map_nil, ite_self, List.append_nil, Bool.false_eq_true, if_false]

/-! ## Enumeration outcomes -/

/-- C11: when the enumeration succeeds with an empty list of paths, whatever
the dates, the run ends with the fatal message `No path found`; its trace is
the check line and the enumeration queries: no poll of the mutations, no
delete statement printed or executed. -/
theorem no_path_stops_run (fl : Flags) (w : World) (globs gwr : List String)
    (dates : List Date) (qs : List Effect)
    (hv : validateDateFilter fl.dateFilter = .ok ()) (hidx : fl.index.length > 0)
    (hread : readGlobs fl.globsFile w.globs = .ok (globs, gwr)) (hq : fl.query = false)
    (ho : w.db.openErr = none)
    (hl : graphiteIndexList w.db fl.index (if fl.reverse then gwr else globs) fl.dateFilter =
      ((dates, [], none), qs)) :
    mainRun fl w = (.fatal "No path found\n", [.print "Check index\n"] ++ qs) ∧
    ∀ e ∈ (mainRun fl w).2, e = .print "Check index\n" ∨
      e = .query (graphiteIndexDateQuery fl.index (if fl.reverse then gwr else globs)
        fl.dateFilter) ∨
      e = .query (graphiteIndexPathQuery fl.index (if fl.reverse then gwr else globs)
        fl.dateFilter) := by
  have hrun := mainRun_no_path fl w globs gwr dates qs hv hidx hread hq ho hl
  refine ⟨hrun, ?_⟩
  intro e he
  rw [hrun] at he
  have hqs := graphiteIndexList_queries w.db fl.index (if fl.reverse then gwr else globs)
    fl.dateFilter
  rw [hl] at hqs
  rcases List.mem_append.mp he with he | he
  · left; simpa using he
  · right; exact hqs e he

/-- The run in delete mode on a world where the path query finds nothing. -/
theorem no_path_stops_run_witness :
    mainRun flagsDelete worldNoPath = (.fatal "No path found\n",
      [.print "Check index\n"] ++
        [.query "SELECT Date FROM graphite_index WHERE (Path like 'a.b') GROUP BY Date",
          .query "SELECT Path FROM graphite_index WHERE (Path like 'a.b') GROUP BY Path"]) :=
  (no_path_stops_run flagsDelete worldNoPath ["a.b"] ["a.b", "b.a"] [⟨2020, 2, 1⟩]
    [.query "SELECT Date FROM graphite_index WHERE (Path like 'a.b') GROUP BY Date",
      .query "SELECT Path FROM graphite_index WHERE (Path like 'a.b') GROUP BY Path"]
    rfl (by decide) rfl rfl rfl rfl).1

/-- C18: a failing `Scan` does not make `graphiteIndexList` return an error.
With the second row of the path query failing to scan, it returns the date,
the one path read so far and a nil error, and the run in delete mode goes on
to execute the delete statement. -/
theorem scan_failure_returns_nil_error :
    (graphiteIndexList worldScanFails.db "graphite_index" ["a.b"] "").1 =
      ([⟨2020, 2, 1⟩], ["a.b"], none) ∧
    mainRun flagsDelete worldScanFails = (.done,
      [.print "Check index\n",
        .query "SELECT Date FROM graphite_index WHERE (Path like 'a.b') GROUP BY Date",
        .query "SELECT Path FROM graphite_index WHERE (Path like 'a.b') GROUP BY Path",
        .print "Read 1 paths in 1 days:", .print " 2020-02-01", .print "\n",
        .poll (mutationsQuery "default" "graphite_index" 0) (.rows []),
        .exec "ALTER TABLE graphite_index  DELETE WHERE (Path like 'a.b' OR Path like 'b.a') AND Date='2020-02-01'"
          none]) := by
  decide

/-- C19: the summary step is out of range exactly when the list of dates is
empty; with no date and one path the run panics at `dates[0]` after the
beginning of the summary line, while the list holding only the date
1970-02-12 is summarised without fault. -/
theorem summary_panics_without_dates :
    (∀ dates paths, summary dates paths = none ↔ dates = []) ∧
    (graphiteIndexList worldNoDates.db "graphite_index" ["a.b"] "").1 = ([], ["a.b"], none) ∧
    mainRun flagsDry worldNoDates = (.panic,
      [.print "Check index\n",
        .query "SELECT Date FROM graphite_index WHERE (Path like 'a.b') GROUP BY Date",
        .query "SELECT Path FROM graphite_index WHERE (Path like 'a.b') GROUP BY Path",
        .print "Read 1 paths in 0 days:"]) ∧
    summary [⟨1970, 2, 12⟩] ["a.b"] =
      some [.print "Read 1 paths in 1 days:", .print " 1970-02-12", .print " - 1970-02-12",
        .print "\n"] :=
  ⟨summary_eq_none_iff, by decide, by decide, by decide⟩

/-! ## The loop in delete mode -/

theorem execsOf_append (l1 l2 : List Effect) :
    execsOf (l1 ++ l2) = execsOf l1 ++ execsOf l2 := by
  simp [execsOf, List.filterMap_append]

theorem execsOf_eq_nil (l : List Effect) (h : ∀ e ∈ l, e.isExec = false) : execsOf l = [] := by
  induction l with
  | nil => rfl
  | cons e l ih =>
    have he := h e (List.mem_cons_self _ _)
    have := ih (fun x hx => h x (List.mem_cons_of_mem _ hx))
    cases e <;> simp_all [execsOf, Effect.isExec]

/-- One gate: either it ends the run, not normally and without a successful
execute, or it breaks out after rounds without any execute, the successful
execute of the statement, and the cooldown unless the date is the last. -/
theorem gateLoop_shape (index : String) (C : Int) (execErr : Nat → String → Option String)
    (n : Nat) (d : Date) (i : Nat) (query : String) (polls : List PollResult) :
    (∃ out, (gateLoop index C execErr n d i query polls).1 = some out ∧ out ≠ .done ∧
      ∀ q, Effect.exec q none ∉ (gateLoop index C execErr n d i query polls).2.1) ∨
    ((gateLoop index C execErr n d i query polls).1 = none ∧
      ∃ W, (gateLoop index C execErr n d i query polls).2.1 =
          W ++ [Effect.exec query none] ++ (if i < n - 1 then [Effect.sleep 1] else []) ∧
        (∀ e ∈ W, e.isExec = false) ∧ ∃ pq r W', W = Effect.poll pq r :: W') := by
  induction polls with
  | nil => exact Or.inl ⟨.starved, rfl, by decide, by simp [gateLoop]⟩
  | cons r rest ih =>
    cases r with
    | failed err => exact Or.inl ⟨.fatal err, rfl, by simp, by simp [gateLoop]⟩
    | rows merges =>
      simp only [gateLoop]
      by_cases hge : (countNotDone merges : Int) ≥ C
      · rw [if_pos hge]
        rcases ih with ⟨out, h1, h2, h3⟩ | ⟨h1, W, h2, h3, _⟩
        · refine Or.inl ⟨out, h1, h2, ?_⟩
          intro q hq
          simp only [List.cons_append, List.nil_append, List.mem_cons, List.mem_append,
            List.mem_map, List.mem_singleton, List.not_mem_nil, or_false] at hq
          rcases hq with hq | hq | (⟨m, _, hq⟩ | hq) | hq
          · cases hq
          · cases hq
          · cases hq
          · cases hq
          · exact h3 q hq
        · refine Or.inr ⟨h1,
            Effect.poll (mutationsQuery "default" index 0) (.rows merges) ::
              (Effect.print ("\nWait for merges complete before delete " ++ d.String ++ " (" ++
                fmtNat i ++ " of " ++ fmtNat n ++ ")\n") ::
              (merges.map Effect.reportMerge ++ [Effect.sleep 10] ++ W)), ?_, ?_,
            ⟨_, _, _, rfl⟩⟩
          · rw [h2]; simp only [List.append_assoc, List.cons_append, List.nil_append]
          · intro e he
            simp only [List.mem_cons, List.mem_append, List.mem_map, List.mem_singleton,
              List.not_mem_nil, or_false] at he
            rcases he with rfl | rfl | (⟨m, _, rfl⟩ | rfl) | he
            · rfl
            · rfl
            · rfl
            · rfl
            · exact h3 e he
      · rw [if_neg hge]
        cases hx : execErr i query with
        | some err => exact Or.inl ⟨.fatal err, rfl, by simp, by simp⟩
        | none =>
          refine Or.inr ⟨rfl, [Effect.poll (mutationsQuery "default" index 0) (.rows merges)],
            rfl, ?_, ⟨_, _, _, rfl⟩⟩
          intro e he
          simp only [List.mem_singleton] at he
          subst he; rfl

/-- While the answers reach the ceiling the gate goes on to the next answer. -/
theorem gateLoop_waits (index : String) (C : Int) (execErr : Nat → String → Option String)
    (n : Nat) (d : Date) (i : Nat) (query : String) (waits : List (List ClickhouseMutation))
    (rest : List PollResult) (hw : ∀ ms ∈ waits, C ≤ (incomplete ms : Int)) :
    (gateLoop index C execErr n d i query (waits.map .rows ++ rest)).1 =
        (gateLoop index C execErr n d i query rest).1 ∧
      (gateLoop index C execErr n d i query (waits.map .rows ++ rest)).2.2 =
        (gateLoop index C execErr n d i query rest).2.2 := by
  induction waits with
  | nil => exact ⟨rfl, rfl⟩
  | cons ms waits ih =>
    have hms : (countNotDone ms : Int) ≥ C := by
      rw [countNotDone_eq]; exact hw ms (List.mem_cons_self _ _)
    have := ih (fun x hx => hw x (List.mem_cons_of_mem _ hx))
    simp only [List.map_cons, List.cons_append, gateLoop, if_pos hms]
    exact this

theorem gateLoop_passes (index : String) (C : Int) (execErr : Nat → String → Option String)
    (n : Nat) (d : Date) (i : Nat) (query : String) (waits : List (List ClickhouseMutation))
    (pass : List ClickhouseMutation) (rest : List PollResult)
    (hw : ∀ ms ∈ waits, C ≤ (incomplete ms : Int)) (hp : (incomplete pass : Int) < C)
    (hx : execErr i query = none) :
    (gateLoop index C execErr n d i query (waits.map .rows ++ .rows pass :: rest)).1 = none ∧
      (gateLoop index C execErr n d i query (waits.map .rows ++ .rows pass :: rest)).2.2 =
        rest := by
  obtain ⟨h1, h2⟩ := gateLoop_waits index C execErr n d i query waits (.rows pass :: rest) hw
  rw [h1, h2]
  have hlt : ¬ (countNotDone pass : Int) ≥ C := by
    rw [countNotDone_eq]; omega
  simp [gateLoop, hlt, hx]

/-- The loop in delete mode, when it ends normally, has executed the delete
statement of every date, in order. -/
theorem dateLoop_done_execs (index : String) (gwr : List String) (C : Int)
    (execErr : Nat → String → Option String) (n : Nat) (ds : List Date) (i : Nat)
    (polls : List PollResult)
    (hdone : (dateLoop index gwr true C execErr n ds i polls).1 = .done) :
    execsOf (dateLoop index gwr true C execErr n ds i polls).2 =
      ds.map fun d => graphiteIndexDeleteQuery index gwr (some d) := by
  induction ds generalizing i polls with
  | nil => rfl
  | cons d ds ih =>
    simp only [dateLoop, if_true] at hdone ⊢
    have hshape := gateLoop_shape index C execErr n d i
      (graphiteIndexDeleteQuery index gwr (some d)) polls
    rcases hg : gateLoop index C execErr n d i
      (graphiteIndexDeleteQuery index gwr (some d)) polls with ⟨o, effs, polls'⟩
    rw [hg] at hdone hshape
    cases o with
    | some out =>
      exfalso
      rcases hshape with ⟨out', h1, h2, _⟩ | ⟨h1, _⟩
      · simp only [Option.some.injEq] at h1
        subst h1
        exact h2 hdone
      · cases h1
    | none =>
      rcases hshape with ⟨out', h1, _⟩ | ⟨_, W, h2, h3, _⟩
      · cases h1
      · simp only [after] at hdone ⊢
        simp only at h2
        rw [execsOf_append, ih _ _ hdone, h2, execsOf_append, execsOf_append,
          execsOf_eq_nil W h3]
        have : execsOf (if i < n - 1 then [Effect.sleep 1] else []) = [] := by
          split_ifs <;> rfl
        rw [this]
        rfl

/-- The loop in delete mode ends normally when, for every date, the engine
answers some polls at or above the ceiling and then one below it, and every
execute succeeds. -/
theorem dateLoop_schedule_done (index : String) (gwr : List String) (C : Int)
    (execErr : Nat → String → Option String) (n : Nat) (ds : List Date) (i : Nat)
    (sched : List (List (List ClickhouseMutation) × List ClickhouseMutation))
    (rest : List PollResult) (hlen : sched.length = ds.length)
    (hgood : ∀ e ∈ sched, (∀ ms ∈ e.1, C ≤ (incomplete ms : Int)) ∧ (incomplete e.2 : Int) < C)
    (hexec : ∀ j q, execErr j q = none) :
    (dateLoop index gwr true C execErr n ds i (schedulePolls sched ++ rest)).1 = .done := by
  induction ds generalizing i sched with
  | nil => rfl
  | cons d ds ih =>
    cases sched with
    | nil => simp at hlen
    | cons e sched =>
      obtain ⟨waits, pass⟩ := e
      obtain ⟨hw, hp⟩ := hgood (waits, pass) (List.mem_cons_self _ _)
      have hpass := gateLoop_passes index C execErr n d i
        (graphiteIndexDeleteQuery index gwr (some d)) waits pass (schedulePolls sched ++ rest)
        hw hp (hexec _ _)
      have key : gateLoop index C execErr n d i (graphiteIndexDeleteQuery index gwr (some d))
          (waits.map .rows ++ .rows pass :: (schedulePolls sched ++ rest)) =
          (none, (gateLoop index C execErr n d i (graphiteIndexDeleteQuery index gwr (some d))
            (waits.map .rows ++ .rows pass :: (schedulePolls sched ++ rest))).2.1,
            schedulePolls sched ++ rest) :=
        Prod.ext hpass.1 (Prod.ext rfl hpass.2)
      simp only [dateLoop, if_true, schedulePolls, List.append_assoc, List.cons_append]
      rw [key]
      simp only [after]
      exact ih (i + 1) sched (by simpa using hlen)
        (fun x hx => hgood x (List.mem_cons_of_mem _ hx))

/-- The effects of the loop in delete mode begin with a poll, if there are any. -/
theorem dateLoop_head (index : String) (gwr : List String) (C : Int)
    (execErr : Nat → String → Option String) (n : Nat) (ds : List Date) (i : Nat)
    (polls : List PollResult) :
    (dateLoop index gwr true C execErr n ds i polls).2 = [] ∨
      ∃ pq r t, (dateLoop index gwr true C execErr n ds i polls).2 = Effect.poll pq r :: t := by
  cases ds with
  | nil => exact Or.inl rfl
  | cons d ds =>
    cases polls with
    | nil => exact Or.inl rfl
    | cons r rest =>
      right
      obtain ⟨tail, ht⟩ := gateLoop_head index C execErr n d i
        (graphiteIndexDeleteQuery index gwr (some d)) r rest
      simp only [dateLoop, if_true]
      rcases hg : gateLoop index C execErr n d i
        (graphiteIndexDeleteQuery index gwr (some d)) (r :: rest) with ⟨o, effs, polls'⟩
      rw [hg] at ht
      simp only at ht
      subst ht
      cases o with
      | some out => exact ⟨_, _, _, rfl⟩
      | none => exact ⟨_, _, _, rfl⟩

/-- Where a successful execute can stand in a list that begins with effects
that are no executes, then one successful execute. -/
theorem split_at_exec (W T pre post : List Effect) (x q : String)
    (hW : ∀ e ∈ W, e.isExec = false)
    (h : W ++ Effect.exec x none :: T = pre ++ Effect.exec q none :: post) :
    (pre = W ∧ x = q ∧ T = post) ∨
      ∃ pre', pre = W ++ Effect.exec x none :: pre' ∧ T = pre' ++ Effect.exec q none :: post := by
  rcases List.append_eq_append_iff.mp h with ⟨a, ha, hb⟩ | ⟨c, hc, hd⟩
  · cases a with
    | nil =>
      simp only [List.nil_append, List.cons.injEq, Effect.exec.injEq, and_true] at hb
      exact Or.inl ⟨by simpa using ha, hb.1, hb.2⟩
    | cons y a =>
      simp only [List.cons_append, List.cons.injEq] at hb
      obtain ⟨hy, hT⟩ := hb
      subst hy
      exact Or.inr ⟨a, ha, hT⟩
  · cases c with
    | nil =>
      simp only [List.nil_append, List.cons.injEq, Effect.exec.injEq, and_true] at hd
      exact Or.inl ⟨by simpa using hc.symm, hd.1.symm, hd.2.symm⟩
    | cons y c =>
      simp only [List.cons_append, List.cons.injEq] at hd
      obtain ⟨hy, _⟩ := hd
      subst hy
      have := hW (Effect.exec q none) (by rw [hc]; simp)
      simp [Effect.isExec] at this

/-- In the loop in delete mode, a successful execute is followed by the
cooldown of one second and then by the next poll, unless it is the execute for
the last date, after which nothing follows. -/
theorem dateLoop_cooldown (index : String) (gwr : List String) (C : Int)
    (execErr : Nat → String → Option String) (n : Nat) (ds : List Date) (i : Nat)
    (polls : List PollResult) (hn : i + ds.length = n) (pre post : List Effect) (q : String)
    (h : (dateLoop index gwr true C execErr n ds i polls).2 = pre ++ Effect.exec q none :: post) :
    (i + (execsOf pre).length + 1 < n ∧ ∃ post', post = Effect.sleep 1 :: post' ∧
        (post' = [] ∨ ∃ pq r t, post' = Effect.poll pq r :: t)) ∨
      (i + (execsOf pre).length + 1 = n ∧ post = []) := by
  induction ds generalizing i polls pre with
  | nil => simp [dateLoop] at h
  | cons d ds ih =>
    simp only [dateLoop, if_true] at h
    have hshape := gateLoop_shape index C execErr n d i
      (graphiteIndexDeleteQuery index gwr (some d)) polls
    rcases hg : gateLoop index C execErr n d i
      (graphiteIndexDeleteQuery index gwr (some d)) polls with ⟨o, effs, polls'⟩
    rw [hg] at h hshape
    simp only [List.length_cons] at hn
    cases o with
    | some out =>
      exfalso
      rcases hshape with ⟨out', _, _, h3⟩ | ⟨h1, _⟩
      · simp only at h h3
        exact h3 q (by rw [h]; simp)
      · cases h1
    | none =>
      rcases hshape with ⟨out', h1, _⟩ | ⟨_, W, h2, h3, _⟩
      · cases h1
      · simp only [after] at h
        simp only at h2
        rw [h2] at h
        simp only [List.append_assoc, List.singleton_append] at h
        rcases split_at_exec W _ pre post _ q h3 h with ⟨hpre, _, hpost⟩ | ⟨pre', hpre, hT⟩
        · rw [hpre, execsOf_eq_nil W h3]
          simp only [List.length_nil, Nat.add_zero]
          by_cases hi : i < n - 1
          · left
            rw [if_pos hi] at hpost
            refine ⟨by omega, _, hpost.symm, ?_⟩
            exact dateLoop_head index gwr C execErr n ds (i + 1) polls'
          · right
            rw [if_neg hi] at hpost
            have hds : ds = [] := List.length_eq_zero.mp (by omega)
            subst hds
            refine ⟨by simp at hn; omega, ?_⟩
            rw [← hpost]
            rfl
        · have hcount : (execsOf pre).length = 1 + (execsOf pre').length ∧
              ∃ pre'', (dateLoop index gwr true C execErr n ds (i + 1) polls').2 =
                pre'' ++ Effect.exec q none :: post ∧
                (execsOf pre'').length = (execsOf pre').length := by
            by_cases hi : i < n - 1
            · rw [if_pos hi] at hT
              cases pre' with
              | nil => simp [List.append_eq] at hT
              | cons y pre'' =>
                simp only [List.append_eq, List.cons_append, List.nil_append,
                  List.cons.injEq] at hT
                obtain ⟨hy, hT⟩ := hT
                subst hy
                refine ⟨?_, pre'', hT, ?_⟩
                · rw [hpre, execsOf_append, execsOf_eq_nil W h3]
                  simp [execsOf]
                  omega
                · simp [execsOf]
            · rw [if_neg hi] at hT
              simp only [List.append_eq, List.nil_append] at hT
              refine ⟨?_, pre', hT, rfl⟩
              rw [hpre, execsOf_append, execsOf_eq_nil W h3]
              simp [execsOf]
              omega
          obtain ⟨hc, pre'', hT', hc'⟩ := hcount
          have := ih (i + 1) polls' (by omega) pre'' hT'
          rw [hc, ← hc']
          rcases this with ⟨h1, h2⟩ | ⟨h1, h2⟩
          · left; exact ⟨by omega, h2⟩
          · right; exact ⟨by omega, h2⟩

/-- What a run writes and asks before the per-date loop is terminal output
and enumeration queries only. -/
theorem loop_prefix_quiet (fl : Flags) (w : World) (ps : List String) (dates : List Date)
    (paths : List String) (qs : List Effect)
    (hl : graphiteIndexList w.db fl.index ps fl.dateFilter = ((dates, paths, none), qs))
    (extra : List Effect) (hextra : ∀ e ∈ extra, e.isPrint = true) :
    ∀ e ∈ [Effect.print "Check index\n"] ++ qs ++
        (if fl.showPath then paths.map fun path => Effect.print (path ++ "\n") else []) ++
        summaryOutput dates paths ++ extra,
      e.isPrint = true ∨ ∃ q, e = Effect.query q := by
  have hqs := graphiteIndexList_queries w.db fl.index ps fl.dateFilter
  rw [hl] at hqs
  intro e he
  simp only [List.mem_append, List.mem_singleton] at he
  rcases he with (((he | he) | he) | he) | he
  · subst he; left; rfl
  · right
    rcases hqs e he with h | h <;> exact ⟨_, h⟩
  · left
    split_ifs at he
    · simp only [List.mem_map] at he
      obtain ⟨a, _, rfl⟩ := he
      rfl
    · simp at he
  · left; exact summaryOutput_prints dates paths e he
  · left; exact hextra e he

theorem quiet_no_exec (l : List Effect)
    (h : ∀ e ∈ l, e.isPrint = true ∨ ∃ q, e = Effect.query q) :
    ∀ e ∈ l, e.isExec = false := by
  intro e he
  rcases h e he with h | ⟨q, rfl⟩
  · cases e <;> simp [Effect.isPrint] at h <;> rfl
  · rfl

theorem quiet_no_sleep (l : List Effect)
    (h : ∀ e ∈ l, e.isPrint = true ∨ ∃ q, e = Effect.query q) :
    ∀ s, Effect.sleep s ∉ l := by
  intro s hs
  rcases h _ hs with h | ⟨q, h⟩
  · simp [Effect.isPrint] at h
  · cases h

theorem split_after_quiet (P L pre post : List Effect) (q : String)
    (hP : ∀ e ∈ P, e.isExec = false) (h : P ++ L = pre ++ Effect.exec q none :: post) :
    ∃ pre', pre = P ++ pre' ∧ L = pre' ++ Effect.exec q none :: post := by
  rcases List.append_eq_append_iff.mp h with ⟨a, ha, hb⟩ | ⟨c, hc, hd⟩
  · exact ⟨a, ha, hb⟩
  · cases c with
    | nil => exact ⟨[], by simpa using hc.symm, by simpa using hd.symm⟩
    | cons y c =>
      simp only [List.cons_append, List.cons.injEq] at hd
      obtain ⟨hy, _⟩ := hd
      subst hy
      have := hP (Effect.exec q none) (by rw [hc]; simp)
      simp [Effect.isExec] at this

theorem prompt_prints (b : Bool) :
    ∀ e ∈ (if b then [Effect.print "Enter Y for start delete: "] else []),
      e.isPrint = true := by
  intro e he
  split_ifs at he
  · simp only [List.mem_singleton] at he
    subst he; rfl
  · simp at he

/-- A dry run after a successful enumeration with at least one path: the
whole trace. -/
theorem mainRun_dry_all (fl : Flags) (w : World) (globs gwr : List String) (dates : List Date)
    (paths : List String) (qs : List Effect)
    (hv : validateDateFilter fl.dateFilter = .ok ()) (hidx : fl.index.length > 0)
    (hread : readGlobs fl.globsFile w.globs = .ok (globs, gwr)) (hq : fl.query = false)
    (ho : w.db.openErr = none)
    (hl : graphiteIndexList w.db fl.index (if fl.reverse then gwr else globs) fl.dateFilter =
      ((dates, paths, none), qs))
    (hp : paths ≠ []) (hask : fl.askDelete = false) (hdel : fl.delete = false) :
    (mainRun fl w).2 =
      [.print "Check index\n"] ++ qs ++
        (if fl.showPath then paths.map fun path => Effect.print (path ++ "\n") else []) ++
        summaryOutput dates paths ++
        dates.map fun d => .print (graphiteIndexDeleteQuery fl.index gwr (some d) ++ "\n\n") := by
  by_cases hd : dates = []
  · subst hd
    rw [mainRun_no_dates fl w globs gwr paths qs hv hidx hread hq ho hl hp]
    simp
  · rw [mainRun_loop fl w globs gwr dates paths qs hv hidx hread hq ho hl hp hd (Or.inl hask)]
    simp only [hask, hdel, Bool.or_false, dateLoop_dry, after, Bool.false_eq_true, if_false,
      List.append_nil]

/-- A run in delete mode after a successful enumeration with at least one
path and one date: the trace is the quiet prefix followed by the loop. -/
theorem mainRun_delete (fl : Flags) (w : World) (globs gwr : List String) (dates : List Date)
    (paths : List String) (qs : List Effect)
    (hv : validateDateFilter fl.dateFilter = .ok ()) (hidx : fl.index.length > 0)
    (hread : readGlobs fl.globsFile w.globs = .ok (globs, gwr)) (hq : fl.query = false)
    (ho : w.db.openErr = none)
    (hl : graphiteIndexList w.db fl.index (if fl.reverse then gwr else globs) fl.dateFilter =
      ((dates, paths, none), qs))
    (hp : paths ≠ []) (hd : dates ≠ [])
    (hmode : (fl.askDelete = false ∧ fl.delete = true) ∨
      (fl.askDelete = true ∧ w.stdin = some "Y")) :
    ∃ P, (∀ e ∈ P, e.isPrint = true ∨ ∃ q, e = Effect.query q) ∧
      mainRun fl w = after P
        (dateLoop fl.index gwr true fl.maxMerges w.db.execErr dates.length dates 0 w.db.polls) := by
  have hrun : fl.askDelete = false ∨ w.stdin = some "Y" := by
    rcases hmode with h | h
    · exact Or.inl h.1
    · exact Or.inr h.2
  have hflag : (fl.askDelete || fl.delete) = true := by
    rcases hmode with h | h
    · simp [h.2]
    · simp [h.1]
  have := mainRun_loop fl w globs gwr dates paths qs hv hidx hread hq ho hl hp hd hrun
  rw [hflag] at this
  exact ⟨_, loop_prefix_quiet fl w _ dates paths qs hl _ (prompt_prints _), this⟩

/-! ## One delete per date -/

/-- C12: after an enumeration with at least one path, a dry run prints, after
the summary, exactly the delete statements of the enumerated dates in
enumeration order; a run in delete mode that ends normally has executed
exactly these statements, one per date and in that order; and it does end
normally when, for every date, the gate passes after finitely many waits and
every execute succeeds. -/
theorem deletes_follow_enumeration (fl : Flags) (w : World) (globs gwr : List String)
    (dates : List Date) (paths : List String) (qs : List Effect)
    (hv : validateDateFilter fl.dateFilter = .ok ()) (hidx : fl.index.length > 0)
    (hread : readGlobs fl.globsFile w.globs = .ok (globs, gwr)) (hq : fl.query = false)
    (ho : w.db.openErr = none)
    (hl : graphiteIndexList w.db fl.index (if fl.reverse then gwr else globs) fl.dateFilter =
      ((dates, paths, none), qs))
    (hp : paths ≠ []) :
    (fl.askDelete = false → fl.delete = false →
      (mainRun fl w).2 =
        [.print "Check index\n"] ++ qs ++
          (if fl.showPath then paths.map fun path => Effect.print (path ++ "\n") else []) ++
          summaryOutput dates paths ++
          dates.map fun d =>
            .print (graphiteIndexDeleteQuery fl.index gwr (some d) ++ "\n\n")) ∧
    ((fl.askDelete = false ∧ fl.delete = true) ∨ (fl.askDelete = true ∧ w.stdin = some "Y") →
      (mainRun fl w).1 = .done →
      execsOf (mainRun fl w).2 =
        dates.map fun d => graphiteIndexDeleteQuery fl.index gwr (some d)) ∧
    ((fl.askDelete = false ∧ fl.delete = true) ∨ (fl.askDelete = true ∧ w.stdin = some "Y") →
      dates ≠ [] →
      ∀ (sched : List (List (List ClickhouseMutation) × List ClickhouseMutation))
        (rest : List PollResult),
        sched.length = dates.length →
        (∀ e ∈ sched, (∀ ms ∈ e.1, fl.maxMerges ≤ (incomplete ms : Int)) ∧
          (incomplete e.2 : Int) < fl.maxMerges) →
        w.db.polls = schedulePolls sched ++ rest →
        (∀ j q, w.db.execErr j q = none) →
        (mainRun fl w).1 = .done ∧
          execsOf (mainRun fl w).2 =
            dates.map fun d => graphiteIndexDeleteQuery fl.index gwr (some d)) := by
  have hexecs : (fl.askDelete = false ∧ fl.delete = true) ∨
      (fl.askDelete = true ∧ w.stdin = some "Y") → (mainRun fl w).1 = .done →
      execsOf (mainRun fl w).2 =
        dates.map fun d => graphiteIndexDeleteQuery fl.index gwr (some d) := by
    intro hmode hdone
    by_cases hd : dates = []
    · subst hd
      rw [mainRun_no_dates fl w globs gwr paths qs hv hidx hread hq ho hl hp] at hdone
      cases hdone
    · obtain ⟨P, hP, hrun⟩ :=
        mainRun_delete fl w globs gwr dates paths qs hv hidx hread hq ho hl hp hd hmode
      rw [hrun] at hdone ⊢
      simp only [after] at hdone ⊢
      rw [execsOf_append, execsOf_eq_nil P (quiet_no_exec P hP), List.nil_append]
      exact dateLoop_done_execs _ _ _ _ _ _ _ _ hdone
  refine ⟨?_, hexecs, ?_⟩
  · intro hask hdel
    exact mainRun_dry_all fl w globs gwr dates paths qs hv hidx hread hq ho hl hp hask hdel
  · intro hmode hd sched rest hlen hgood hpolls hexec
    have hdone : (mainRun fl w).1 = .done := by
      obtain ⟨P, _, hrun⟩ :=
        mainRun_delete fl w globs gwr dates paths qs hv hidx hread hq ho hl hp hd hmode
      rw [hrun, hpolls]
      simp only [after]
      exact dateLoop_schedule_done _ _ _ _ _ _ _ sched rest hlen hgood hexec
    exact ⟨hdone, hexecs hmode hdone⟩

/-- The run in delete mode on the pattern `a.b` and one date, where the gate
waits twice and then passes. -/
theorem deletes_follow_enumeration_witness :
    (mainRun flagsDelete worldOne).1 = .done ∧
      execsOf (mainRun flagsDelete worldOne).2 =
        [graphiteIndexDeleteQuery "graphite_index" ["a.b", "b.a"] (some ⟨2020, 2, 1⟩)] :=
  (deletes_follow_enumeration flagsDelete worldOne ["a.b"] ["a.b", "b.a"] [⟨2020, 2, 1⟩] ["a.b"]
    [.query "SELECT Date FROM graphite_index WHERE (Path like 'a.b') GROUP BY Date",
      .query "SELECT Path FROM graphite_index WHERE (Path like 'a.b') GROUP BY Path"]
    rfl (by decide) rfl rfl rfl rfl (by decide)).2.2 (Or.inl ⟨rfl, rfl⟩) (by decide)
    [([[busyMutation], [busyMutation]], [])] [] rfl
    (by
      intro e he
      simp only [List.mem_singleton] at he
      subst he
      exact ⟨by decide, by decide⟩)
    rfl (fun _ _ => rfl)

/-! ## Cooldown -/

/-- C16: in delete mode, the successful execute for the date of index `i`
among `n` (as many executes precede it in the trace) is followed by a sleep of
one second and then by the next poll when `i < n - 1`, and by nothing when
`i = n - 1`; a dry run never sleeps. -/
theorem cooldown_after_each_but_last (fl : Flags) (w : World) (globs gwr : List String)
    (dates : List Date) (paths : List String) (qs : List Effect)
    (hv : validateDateFilter fl.dateFilter = .ok ()) (hidx : fl.index.length > 0)
    (hread : readGlobs fl.globsFile w.globs = .ok (globs, gwr)) (hq : fl.query = false)
    (ho : w.db.openErr = none)
    (hl : graphiteIndexList w.db fl.index (if fl.reverse then gwr else globs) fl.dateFilter =
      ((dates, paths, none), qs))
    (hp : paths ≠ []) :
    ((fl.askDelete = false ∧ fl.delete = true) ∨ (fl.askDelete = true ∧ w.stdin = some "Y") →
      ∀ pre post q, (mainRun fl w).2 = pre ++ Effect.exec q none :: post →
        ((execsOf pre).length + 1 < dates.length ∧
          ∃ post', post = Effect.sleep 1 :: post' ∧
            (post' = [] ∨ ∃ pq r t, post' = Effect.poll pq r :: t)) ∨
        ((execsOf pre).length + 1 = dates.length ∧ post = [])) ∧
    (fl.askDelete = false → fl.delete = false → ∀ s, Effect.sleep s ∉ (mainRun fl w).2) := by
  constructor
  · intro hmode pre post q hsplit
    by_cases hd : dates = []
    · exfalso
      subst hd
      rw [mainRun_no_dates fl w globs gwr paths qs hv hidx hread hq ho hl hp] at hsplit
      have hquiet := loop_prefix_quiet fl w _ [] paths qs hl [] (by simp)
      simp only [List.append_nil] at hquiet
      have := quiet_no_exec _ hquiet (Effect.exec q none) (by
        simp only at hsplit
        rw [hsplit]; simp)
      simp [Effect.isExec] at this
    · obtain ⟨P, hP, hrun⟩ :=
        mainRun_delete fl w globs gwr dates paths qs hv hidx hread hq ho hl hp hd hmode
      rw [hrun] at hsplit
      simp only [after] at hsplit
      obtain ⟨pre', hpre, hloop⟩ := split_after_quiet P _ pre post q (quiet_no_exec P hP) hsplit
      have := dateLoop_cooldown fl.index gwr fl.maxMerges w.db.execErr dates.length dates 0
        w.db.polls (by simp) pre' post q hloop
      rw [hpre, execsOf_append, execsOf_eq_nil P (quiet_no_exec P hP), List.nil_append]
      simpa using this
  · intro hask hdel s hs
    rw [mainRun_dry_all fl w globs gwr dates paths qs hv hidx hread hq ho hl hp hask hdel] at hs
    rcases List.mem_append.mp hs with hs | hs
    · have hquiet := loop_prefix_quiet fl w _ dates paths qs hl [] (by simp)
      simp only [List.append_nil] at hquiet
      exact quiet_no_sleep _ hquiet s hs
    · simp at hs

/-- The run in delete mode over two dates: the execute for the first date is
followed by the cooldown and the next poll. -/
theorem cooldown_after_each_but_last_witness :
    ∃ post',
      [Effect.sleep 1, .poll (mutationsQuery "default" "graphite_index" 0) (.rows []),
        .exec (graphiteIndexDeleteQuery "graphite_index" ["a.b", "b.a"] (some ⟨2020, 2, 2⟩))
          none] = Effect.sleep 1 :: post' ∧
      (post' = [] ∨ ∃ pq r t, post' = Effect.poll pq r :: t) :=
  (((cooldown_after_each_but_last flagsDelete worldTwo ["a.b"] ["a.b", "b.a"]
    [⟨2020, 2, 1⟩, ⟨2020, 2, 2⟩] ["a.b"]
    [.query "SELECT Date FROM graphite_index WHERE (Path like 'a.b') GROUP BY Date",
      .query "SELECT Path FROM graphite_index WHERE (Path like 'a.b') GROUP BY Path"]
    rfl (by decide) rfl rfl rfl rfl (by decide)).1 (Or.inl ⟨rfl, rfl⟩)
    [Effect.print "Check index\n",
      .query "SELECT Date FROM graphite_index WHERE (Path like 'a.b') GROUP BY Date",
      .query "SELECT Path FROM graphite_index WHERE (Path like 'a.b') GROUP BY Path",
      .print "Read 1 paths in 2 days:", .print " 2020-02-01", .print " - 2020-02-02",
      .print "\n",
      .poll (mutationsQuery "default" "graphite_index" 0) (.rows [])]
    [Effect.sleep 1, .poll (mutationsQuery "default" "graphite_index" 0) (.rows []),
      .exec (graphiteIndexDeleteQuery "graphite_index" ["a.b", "b.a"] (some ⟨2020, 2, 2⟩)) none]
    (graphiteIndexDeleteQuery "graphite_index" ["a.b", "b.a"] (some ⟨2020, 2, 1⟩))
    (by decide)).resolve_right (by decide)).2

/-! ## The buffer of the scanner -/

theorem utf8ByteSize_go_replicate (n : Nat) :
    String.utf8ByteSize.go (List.replicate n 'x') = n := by
  induction n with
  | zero => rfl
  | succ n ih =>
    rw [List.replicate_succ, String.utf8ByteSize.go, ih]
    rfl

theorem longLine_bytes : longLine.utf8ByteSize = 70000 :=
  utf8ByteSize_go_replicate 70000

theorem longLine_too_long : ¬ longLine.utf8ByteSize < maxScanTokenSize := by
  rw [longLine_bytes]
  decide

/-- The scanner delivers every line, without its carriage return, when all
lines fit in its buffer. -/
theorem scannerTokens_of_fit (lines : List String)
    (h : ∀ l ∈ lines, l.utf8ByteSize < maxScanTokenSize) :
    scannerTokens lines = lines.map dropCR := by
  induction lines with
  | nil => rfl
  | cons l rest ih =>
    rw [scannerTokens, if_pos (h l (List.mem_cons_self _ _)),
      ih (fun x hx => h x (List.mem_cons_of_mem _ hx))]
    rfl

theorem dropCR_of_no_cr (l : String) (h : l.data.getLast? ≠ some '\r') : dropCR l = l := by
  simp [dropCR, h]

/-- The scanner delivers the lines as they are when all fit in its buffer and
none ends with a carriage return. -/
theorem scannerTokens_plain (lines : List String)
    (h : ∀ l ∈ lines, l.utf8ByteSize < maxScanTokenSize ∧ l.data.getLast? ≠ some '\r') :
    scannerTokens lines = lines := by
  rw [scannerTokens_of_fit lines (fun l hl => (h l hl).1)]
  induction lines with
  | nil => rfl
  | cons l rest ih =>
    rw [List.map_cons, dropCR_of_no_cr l (h l (List.mem_cons_self _ _)).2,
      ih (fun x hx => h x (List.mem_cons_of_mem _ hx))]

theorem readGlobs_long_line_after :
    readGlobs "globs.txt" (.ok ["a.b", longLine, "c d"]) = .ok (["a.b"], ["a.b", "b.a"]) := by
  have htok : scannerTokens ["a.b", longLine, "c d"] = ["a.b"] := by
    rw [scannerTokens, if_pos (by decide), scannerTokens, if_neg longLine_too_long]
    rfl
  have hpath : ¬ "globs.txt".length = 0 := by decide
  simp only [readGlobs, if_neg hpath, htok]
  rfl

/-- A file whose lines all fit in the buffer of the scanner and one of which,
without its carriage return and trimmed, has a forbidden character, is
refused, and the run does nothing. -/
theorem readGlobs_forbidden_of_fit (path : String) (lines : List String)
    (hfit : ∀ l ∈ lines, l.utf8ByteSize < maxScanTokenSize)
    (h : ∃ line ∈ lines, ∃ c ∈ (trimSpaces (dropCR line)).data, c ∈ forbiddenBySpec) :
    (∃ msg, readGlobs path (.ok lines) = .error msg) ∧
      ∀ (fl : Flags) (w : World), fl.globsFile = path → w.globs = .ok lines →
        (mainRun fl w).2 = [] := by
  have hread : ∃ msg, readGlobs path (.ok lines) = .error msg := by
    unfold readGlobs
    split_ifs
    · exact ⟨_, rfl⟩
    · apply scanGlobs_forbidden
      obtain ⟨l, hl, c, hc, hf⟩ := h
      rw [scannerTokens_of_fit lines hfit]
      refine ⟨dropCR l, List.mem_map_of_mem _ hl, ?_⟩
      exact (hasForbidden_iff _).mpr ⟨c, hc, hf⟩
  refine ⟨hread, ?_⟩
  intro fl w hpath hglobs
  obtain ⟨msg, hmsg⟩ := hread
  unfold mainRun
  rw [hpath, hglobs, hmsg]
  split
  · rfl
  · split_ifs <;> rfl

/-- C7: a line that does not fit in the buffer of the scanner ends the reading
of the pattern file without an error. On the file with the lines `a.b`, a
line of 70000 letters and `c d`, `readGlobs` returns the pattern `a.b` and its
reversed variant although the third line has a space inside, and the dry run
goes on to the queries and prints the delete statement. When every line fits
in the buffer, a line with a forbidden character makes `readGlobs` fail and
the run end without any effect. -/
theorem long_line_hides_forbidden_line :
    readGlobs "globs.txt" (.ok ["a.b", longLine, "c d"]) = .ok (["a.b"], ["a.b", "b.a"]) ∧
    (∃ c ∈ (trimSpaces "c d").data, c ∈ forbiddenBySpec) ∧
    mainRun flagsDry worldLongLine = (.done,
      [.print "Check index\n",
        .query "SELECT Date FROM graphite_index WHERE (Path like 'a.b') GROUP BY Date",
        .query "SELECT Path FROM graphite_index WHERE (Path like 'a.b') GROUP BY Path",
        .print "Read 1 paths in 1 days:", .print " 2020-02-01", .print "\n",
        .print "ALTER TABLE graphite_index  DELETE WHERE (Path like 'a.b' OR Path like 'b.a') AND Date='2020-02-01'\n\n"]) ∧
    ∀ (path : String) (lines : List String),
      (∀ l ∈ lines, l.utf8ByteSize < maxScanTokenSize) →
      (∃ line ∈ lines, ∃ c ∈ (trimSpaces (dropCR line)).data, c ∈ forbiddenBySpec) →
      (∃ msg, readGlobs path (.ok lines) = .error msg) ∧
        ∀ (fl : Flags) (w : World), fl.globsFile = path → w.globs = .ok lines →
          (mainRun fl w).2 = [] := by
  refine ⟨readGlobs_long_line_after, ⟨' ', by decide, by decide⟩, ?_, readGlobs_forbidden_of_fit⟩
  have h := mainRun_dry flagsDry worldLongLine ["a.b"] ["a.b", "b.a"] [⟨2020, 2, 1⟩] ["a.b"]
    [.query "SELECT Date FROM graphite_index WHERE (Path like 'a.b') GROUP BY Date",
      .query "SELECT Path FROM graphite_index WHERE (Path like 'a.b') GROUP BY Path"]
    [.print "Read 1 paths in 1 days:", .print " 2020-02-01", .print "\n"]
    rfl (by decide) readGlobs_long_line_after rfl rfl rfl (by decide) rfl rfl rfl
  rw [h]
  rfl

theorem dropWhile_space_replicate (n : Nat) :
    (List.replicate n 'x').dropWhile (· = ' ') = List.replicate n 'x' := by
  cases n with
  | zero => rfl
  | succ n =>
    rw [List.replicate_succ, List.dropWhile_cons_of_neg (by decide)]

theorem trimSpaces_longLine : trimSpaces longLine = longLine := by
  unfold trimSpaces longLine
  simp only [dropWhile_space_replicate, List.reverse_replicate]

theorem longLine_length : longLine.data.length = 70000 :=
  List.length_replicate 70000 'x'

theorem longLine_ne_single (c : Char) : longLine ≠ String.mk [c] := by
  intro h
  have h2 : longLine.data.length = (String.mk [c]).data.length :=
    congrArg (fun s => s.data.length) h
  rw [longLine_length] at h2
  simp at h2

theorem longLine_ne_empty : longLine ≠ "" := by
  intro h
  have h2 : longLine.data.length = "".data.length := congrArg (fun s => s.data.length) h
  rw [longLine_length] at h2
  simp at h2

theorem longLine_valid : validGlob longLine := by
  refine ⟨longLine_ne_single '%', longLine_ne_single '?', ?_⟩
  intro c hc
  have : c = 'x' := List.eq_of_mem_replicate hc
  subst this
  decide

theorem trimmedLines_longLine : trimmedLines [longLine] = [longLine] := by
  simp [trimmedLines, trimSpaces_longLine, longLine_ne_empty]

theorem readGlobs_long_line_only :
    readGlobs "globs.txt" (.ok [longLine]) = .error "empthy glob list" := by
  have htok : scannerTokens [longLine] = [] := by
    rw [scannerTokens, if_neg longLine_too_long]
  have hpath : ¬ "globs.txt".length = 0 := by decide
  simp only [readGlobs, if_neg hpath, htok]
  rfl

/-- C15: `readGlobs` is the reference reading of the tokens that the scanner
delivers, not of all lines of the file. On the file whose only line has 70000
letters, a line that passes every check, it fails with `empthy glob list`
where the reference succeeds with that line. For every file that could be
opened, with `ts` the delivered tokens trimmed and the empty ones dropped,
`readGlobs` succeeds if and only if `ts` is not empty and no element of `ts`
is the bare `%` or `?` or has a forbidden character, and it then returns `ts`
and each pattern followed by its reversed variant; the delivered tokens are
all the lines when every line fits in the buffer and none ends with a carriage
return. -/
theorem long_line_breaks_reference :
    (trimmedLines [longLine] = [longLine] ∧ validGlob longLine) ∧
    readGlobs "globs.txt" (.ok [longLine]) = .error "empthy glob list" ∧
    (∀ (path : String) (lines : List String), path ≠ "" →
      ((∃ r, readGlobs path (.ok lines) = .ok r) ↔
        (trimmedLines (scannerTokens lines) ≠ [] ∧
          ∀ t ∈ trimmedLines (scannerTokens lines), validGlob t)) ∧
      ∀ globs gwr, readGlobs path (.ok lines) = .ok (globs, gwr) →
        globs = trimmedLines (scannerTokens lines) ∧
          gwr = withReversed (trimmedLines (scannerTokens lines)) ∧
          gwr.length = 2 * (trimmedLines (scannerTokens lines)).length) ∧
    ∀ lines : List String,
      (∀ l ∈ lines, l.utf8ByteSize < maxScanTokenSize ∧ l.data.getLast? ≠ some '\r') →
      scannerTokens lines = lines :=
  ⟨⟨trimmedLines_longLine, longLine_valid⟩, readGlobs_long_line_only, readGlobs_spec,
    scannerTokens_plain⟩

end GraphiteChCleanup
